import Mathlib

/-!
Verification of the BroadPhase BVH (`src/BroadPhase/src/aabb.h`, `bvh.h`,
`bvh.cpp`).

Embedding notes.
* Coordinates are `float` in the source; every operation the claims touch
  (comparisons, componentwise min/max, merges, halving for centroids) is
  modelled over `ℚ`, where those operations are exact.
* The C++ arena `std::vector<BVHNode>` is a `List BVHNode`; `int` node and
  shape indices stay `ℤ` with the source's `-1` sentinels.
* `std::sort` with the strict centroid comparator is modelled by
  `List.mergeSort` with the corresponding non-strict comparator (any
  C++-conforming sort yields a list sorted the same way; ties are broken
  by input order here).
* The unbounded C++ recursions and stack loops (`self_query`, `query`,
  `query_with_steps`) are modelled with an explicit fuel parameter; the
  public entry points pass a fuel that is proved sufficient for every tree
  produced by `build`.
* Result vectors grown by `push_back` are modelled by returning the emitted
  elements in emission order.
-/

/-- Two-dimensional vector, from `vec2.h` (only the members used by the
broad phase are embedded). -/
structure Vec2 where
  x : ℚ
  y : ℚ
deriving DecidableEq, Inhabited

instance : Add Vec2 := ⟨fun a b => ⟨a.x + b.x, a.y + b.y⟩⟩

instance : HMul Vec2 ℚ Vec2 := ⟨fun v s => ⟨v.x * s, v.y * s⟩⟩

/-- Componentwise minimum, from `Vec2::min`. -/
def Vec2.min (a b : Vec2) : Vec2 :=
  ⟨if a.x < b.x then a.x else b.x, if a.y < b.y then a.y else b.y⟩

/-- Componentwise maximum, from `Vec2::max`. -/
def Vec2.max (a b : Vec2) : Vec2 :=
  ⟨if a.x > b.x then a.x else b.x, if a.y > b.y then a.y else b.y⟩

/-- Axis-aligned bounding box, from `aabb.h`. -/
structure AABB where
  min : Vec2
  max : Vec2
deriving DecidableEq, Inhabited

/-- Width, from `AABB::width`. -/
def AABB.width (a : AABB) : ℚ := a.max.x - a.min.x

/-- Height, from `AABB::height`. -/
def AABB.height (a : AABB) : ℚ := a.max.y - a.min.y

/-- Centroid, from `AABB::center` (`(min + max) * 0.5f`). -/
def AABB.center (a : AABB) : Vec2 := (a.min + a.max) * (1 / 2 : ℚ)

/-- Overlap test on closed intervals, from `AABB::overlaps`. -/
def AABB.overlaps (a o : AABB) : Bool :=
  decide (a.min.x ≤ o.max.x) && decide (a.max.x ≥ o.min.x) &&
  decide (a.min.y ≤ o.max.y) && decide (a.max.y ≥ o.min.y)

/-- Merge of two boxes, from `AABB::merged`. -/
def AABB.merged (a o : AABB) : AABB :=
  ⟨Vec2.min a.min o.min, Vec2.max a.max o.max⟩

/-- Verification-only predicate: `big` encloses `small` componentwise.  It is
the containment that `merged` establishes and that bound-based pruning
relies on; it is not a function of the source. -/
def AABB.subsumes (big small : AABB) : Prop :=
  big.min.x ≤ small.min.x ∧ small.max.x ≤ big.max.x ∧
  big.min.y ≤ small.min.y ∧ small.max.y ≤ big.max.y

/-- Arena node, from `bvh.h` (`struct BVHNode`), with the same member
defaults as the C++ in-class initialisers. -/
structure BVHNode where
  bounds : AABB := ⟨⟨0, 0⟩, ⟨0, 0⟩⟩
  left : ℤ := -1
  right : ℤ := -1
  shape_index : ℤ := -1
  depth : ℕ := 0
  subtree_size : ℕ := 1
deriving DecidableEq, Inhabited

/-- A default-initialised arena node, as pushed by `nodes_.push_back({})`
(all members take their in-class initialiser values). -/
def BVHNode.init : BVHNode := {}

/-- Traversal actions, from `bvh.h` (`enum class TraversalAction`). -/
inductive TraversalAction where
  | Visit
  | Prune
  | LeafTest
deriving DecidableEq, Inhabited

/-- Traversal record, from `bvh.h` (`struct TraversalStep`). -/
structure TraversalStep where
  node_index : ℤ
  action : TraversalAction
  query_shape : ℤ
  partner_shape : ℤ
deriving DecidableEq, Inhabited

/-- BVH state: the node arena and the running depth maximum, from the data
members of `class BVH`. -/
structure BVH where
  nodes : List BVHNode
  max_depth : ℕ
deriving DecidableEq, Inhabited

/-- Stable insertion of `x` into `l` with respect to the comparator `le`
(helper for `sortIndices`). -/
def insertSorted (le : ℕ → ℕ → Bool) (x : ℕ) : List ℕ → List ℕ
  | [] => [x]
  | y :: ys => if le x y then x :: y :: ys else y :: insertSorted le x ys

/-- Centroid sort of a shape-index list, from the `std::sort` call in
`BVH::build_recursive` (comparator: centroid coordinate along the chosen
axis).  `std::sort` leaves the order of tied elements unspecified; this
model is a stable insertion sort, one conforming choice.  No theorem below
depends on more than the sortedness-independent facts (permutation). -/
def sortIndices (aabbs : List AABB) (split_x : Bool) (indices : List ℕ) : List ℕ :=
  indices.foldr
    (insertSorted fun a b =>
      if split_x then
        decide ((aabbs.getD a default).center.x ≤ (aabbs.getD b default).center.x)
      else
        decide ((aabbs.getD a default).center.y ≤ (aabbs.getD b default).center.y))
    []

theorem perm_insertSorted (le : ℕ → ℕ → Bool) (x : ℕ) (l : List ℕ) :
    List.Perm (insertSorted le x l) (x :: l) := by
  induction l with
  | nil => simp [insertSorted]
  | cons y ys ih =>
    simp only [insertSorted]
    by_cases h : le x y = true
    · simp [h]
    · simp only [h, if_false]
      exact (List.Perm.cons y ih).trans (List.Perm.swap x y ys)

theorem perm_sortIndices (aabbs : List AABB) (split_x : Bool) (indices : List ℕ) :
    List.Perm (sortIndices aabbs split_x indices) indices := by
  induction indices with
  | nil => simp [sortIndices]
  | cons i is ih =>
    simp only [sortIndices, List.foldr_cons]
    exact (perm_insertSorted _ i _).trans (List.Perm.cons i ih)

theorem length_sortIndices (aabbs : List AABB) (split_x : Bool) (indices : List ℕ) :
    (sortIndices aabbs split_x indices).length = indices.length :=
  (perm_sortIndices aabbs split_x indices).length_eq

/-- Recursive arena construction, from `BVH::build_recursive`.  Returns the
index of the node built for `indices` together with the updated state.  The
C++ recursion is on ever-shorter index lists; it is modelled structurally
with a `fuel` bound on the recursion depth, and `fuel = indices.length` is
proved sufficient (`build_recursive_spec`).  The C++ function requires
`indices` nonempty (it reads `indices[0]`); on `[]` this model returns the
state unchanged (that case is unreachable from `BVH.build`). -/
def build_recursive (aabbs : List AABB) : ℕ → List ℕ → ℕ → BVH → ℕ × BVH
  | 0, _, _, st => (st.nodes.length, st)
  | _, [], _, st => (st.nodes.length, st)
  | _ + 1, [i0], depth, st =>
    let md := Max.max st.max_depth depth
    let node_idx := st.nodes.length
    let nodes1 := st.nodes ++ [BVHNode.init]
    let bounds := aabbs.getD i0 default
    (node_idx,
      ⟨nodes1.set node_idx
        {bounds := bounds, depth := depth, shape_index := (i0 : ℤ), subtree_size := 1},
       md⟩)
  | fuel + 1, i0 :: i1 :: rest2, depth, st =>
    let md := Max.max st.max_depth depth
    let node_idx := st.nodes.length
    let nodes1 := st.nodes ++ [BVHNode.init]
    let bounds := (i1 :: rest2).foldl (fun b k => b.merged (aabbs.getD k default))
      (aabbs.getD i0 default)
    let split_x : Bool := decide (bounds.height ≤ bounds.width)
    let sorted := sortIndices aabbs split_x (i0 :: i1 :: rest2)
    let mid := sorted.length / 2
    let res1 := build_recursive aabbs fuel (sorted.take mid) (depth + 1) ⟨nodes1, md⟩
    let res2 := build_recursive aabbs fuel (sorted.drop mid) (depth + 1) res1.2
    let ls := (res2.2.nodes.getD res1.1 default).subtree_size
    let rs := (res2.2.nodes.getD res2.1 default).subtree_size
    (node_idx,
      ⟨res2.2.nodes.set node_idx
        {bounds := bounds, depth := depth, left := (res1.1 : ℤ), right := (res2.1 : ℤ),
         subtree_size := ls + rs},
       res2.2.max_depth⟩)

/-- Tree construction, from `BVH::build` (which first performs `clear()`). -/
def BVH.build (aabbs : List AABB) : BVH :=
  if aabbs.isEmpty then ⟨[], 0⟩
  else (build_recursive aabbs aabbs.length (List.range aabbs.length) 0 ⟨[], 0⟩).2

/-- Root accessor, from `BVH::root`. -/
def BVH.root (t : BVH) : ℤ := if t.nodes.isEmpty then -1 else 0

/-- Pair enumeration between the subtrees at `a` and `b` (or within one
subtree when `a = b`), from `BVH::self_query`.  `fuel` bounds the recursion
depth; `BVH.find_all_pairs` passes a fuel proved sufficient for every built
tree.  Emitted pairs are returned in emission order. -/
def self_query (ns : List BVHNode) : ℕ → ℤ → ℤ → List (ℤ × ℤ)
  | 0, _, _ => []
  | fuel + 1, a, b =>
    if a < 0 ∨ b < 0 then []
    else if a.toNat < ns.length ∧ b.toNat < ns.length then
      let na := ns.getD a.toNat default
      let nb := ns.getD b.toNat default
      if na.bounds.overlaps nb.bounds = false then []
      else if 0 ≤ na.shape_index ∧ 0 ≤ nb.shape_index then
        if na.shape_index ≠ nb.shape_index then
          [(Min.min na.shape_index nb.shape_index, Max.max na.shape_index nb.shape_index)]
        else []
      else if a = b then
        self_query ns fuel na.left na.left ++ self_query ns fuel na.right na.right ++
          self_query ns fuel na.left na.right
      else if 0 ≤ na.shape_index then
        self_query ns fuel a nb.left ++ self_query ns fuel a nb.right
      else if 0 ≤ nb.shape_index then
        self_query ns fuel na.left b ++ self_query ns fuel na.right b
      else if nb.subtree_size ≤ na.subtree_size then
        self_query ns fuel na.left b ++ self_query ns fuel na.right b
      else
        self_query ns fuel a nb.left ++ self_query ns fuel a nb.right
    else []

/-- All overlapping leaf pairs, from `BVH::find_all_pairs`. -/
def BVH.find_all_pairs (t : BVH) : List (ℤ × ℤ) :=
  if t.nodes.isEmpty then []
  else self_query t.nodes (2 * t.nodes.length + 2) 0 0

/-- Stack-driven overlap query, from the `while` loop of `BVH::query`.  The
head of the list is the stack top; `fuel` bounds the number of loop
iterations and `BVH.query` passes a fuel proved sufficient for every built
tree.  Results appear in emission order. -/
def queryGo (ns : List BVHNode) (query_box : AABB) (exclude_index : ℤ) :
    ℕ → List ℤ → List ℤ
  | _, [] => []
  | 0, _ :: _ => []
  | fuel + 1, idx :: stack =>
    if idx < 0 then queryGo ns query_box exclude_index fuel stack
    else if idx.toNat < ns.length then
      let n := ns.getD idx.toNat default
      if n.bounds.overlaps query_box = false then
        queryGo ns query_box exclude_index fuel stack
      else if 0 ≤ n.shape_index then
        (if n.shape_index ≠ exclude_index then [n.shape_index] else []) ++
          queryGo ns query_box exclude_index fuel stack
      else
        queryGo ns query_box exclude_index fuel (n.right :: n.left :: stack)
    else queryGo ns query_box exclude_index fuel stack

/-- Overlap query, from `BVH::query`. -/
def BVH.query (t : BVH) (query_box : AABB) (exclude_index : ℤ) : List ℤ :=
  if t.nodes.isEmpty then []
  else queryGo t.nodes query_box exclude_index (2 * t.nodes.length + 1) [0]

/-- Stack-driven traversal recording, from the `while` loop of
`BVH::query_with_steps`.  Note the source pushes `right` then `left` here
(the opposite of `BVH::query`), so the left child is popped first. -/
def stepsGo (ns : List BVHNode) (query_box : AABB) (query_index : ℤ) :
    ℕ → List ℤ → List TraversalStep
  | _, [] => []
  | 0, _ :: _ => []
  | fuel + 1, idx :: stack =>
    if idx < 0 then stepsGo ns query_box query_index fuel stack
    else if idx.toNat < ns.length then
      let n := ns.getD idx.toNat default
      if n.bounds.overlaps query_box = false then
        ⟨idx, TraversalAction.Prune, query_index, -1⟩ ::
          stepsGo ns query_box query_index fuel stack
      else if 0 ≤ n.shape_index then
        (if n.shape_index ≠ query_index then
          [⟨idx, TraversalAction.LeafTest, query_index, n.shape_index⟩] else []) ++
          stepsGo ns query_box query_index fuel stack
      else
        ⟨idx, TraversalAction.Visit, query_index, -1⟩ ::
          stepsGo ns query_box query_index fuel (n.left :: n.right :: stack)
    else stepsGo ns query_box query_index fuel stack

/-- Traversal-recording query, from `BVH::query_with_steps`. -/
def BVH.query_with_steps (t : BVH) (query_box : AABB) (query_index : ℤ) :
    List TraversalStep :=
  if t.nodes.isEmpty then []
  else stepsGo t.nodes query_box query_index (2 * t.nodes.length + 1) [0]

/-- Verification-only instrumentation of `stepsGo`: the same control flow,
recording every index popped from the stack (in pop order) instead of the
emitted steps. -/
def popTraceGo (ns : List BVHNode) (query_box : AABB) :
    ℕ → List ℤ → List ℤ
  | _, [] => []
  | 0, _ :: _ => []
  | fuel + 1, idx :: stack =>
    if idx < 0 then idx :: popTraceGo ns query_box fuel stack
    else if idx.toNat < ns.length then
      let n := ns.getD idx.toNat default
      if n.bounds.overlaps query_box = false then
        idx :: popTraceGo ns query_box fuel stack
      else if 0 ≤ n.shape_index then
        idx :: popTraceGo ns query_box fuel stack
      else
        idx :: popTraceGo ns query_box fuel (n.left :: n.right :: stack)
    else idx :: popTraceGo ns query_box fuel stack

/-- Indices popped during `BVH.query_with_steps` (verification-only, same
fuel and initial stack as `BVH.query_with_steps`). -/
def BVH.popTrace (t : BVH) (query_box : AABB) : List ℤ :=
  if t.nodes.isEmpty then []
  else popTraceGo t.nodes query_box (2 * t.nodes.length + 1) [0]

/-- Brute-force pair enumeration, from `brute_force_pairs` in `bvh.cpp`
(the inner loop runs `j` from `i + 1` to `n - 1`). -/
def brute_force_pairs (aabbs : List AABB) : List (ℤ × ℤ) :=
  (List.range aabbs.length).flatMap fun i =>
    (List.range' (i + 1) (aabbs.length - (i + 1))).filterMap fun j =>
      if (aabbs.getD i default).overlaps (aabbs.getD j default) then
        some ((i : ℤ), (j : ℤ))
      else none

/-- Verification-only predicate: the condition under which one loop
iteration of `BVH::query_with_steps` that pops `idx` appends a step.  It
fails exactly for a negative (or out-of-range) index and for the
overlapping leaf whose `shape_index` equals `query_index`. -/
def stepEmitted (ns : List BVHNode) (query_box : AABB) (query_index : ℤ) (idx : ℤ) :
    Bool :=
  if idx < 0 then false
  else if idx.toNat < ns.length then
    let n := ns.getD idx.toNat default
    if n.bounds.overlaps query_box = false then true
    else if 0 ≤ n.shape_index then decide (n.shape_index ≠ query_index)
    else true
  else false

/-- Verification-only projection: the shape index stored at a leaf node
(`shape_index >= 0` is the source's leaf criterion). -/
def leafShape (nd : BVHNode) : Option ℤ :=
  if 0 ≤ nd.shape_index then some nd.shape_index else none

/-- Verification-only well-formedness of one arena node, as claimed by the
spec: a leaf carries a valid shape and no children and counts one; an
internal node carries two valid child indices and the sum of the child
subtree sizes. -/
def NodeWF (aabbs : List AABB) (ns : List BVHNode) (nd : BVHNode) : Prop :=
  (0 ≤ nd.shape_index ∧ nd.left = -1 ∧ nd.right = -1 ∧
    nd.shape_index.toNat < aabbs.length ∧ nd.subtree_size = 1) ∨
  (nd.shape_index = -1 ∧
    0 ≤ nd.left ∧ nd.left.toNat < ns.length ∧ 0 ≤ nd.right ∧ nd.right.toNat < ns.length ∧
    nd.subtree_size = (ns.getD nd.left.toNat default).subtree_size +
      (ns.getD nd.right.toNat default).subtree_size)

/-- Verification-only view relating an arena index to the well-formed
subtree rooted there.  `TreeView aabbs ns i s` says: node `i` roots a
subtree whose leaves carry exactly the shape indices in `s`, laid out the
way `build_recursive` lays subtrees out (the node itself at `i`, the left
subtree at `i + 1 .. i + 2|s₁| - 1`, the right subtree after it), with the
structural fields and bounds `build_recursive` establishes. -/
inductive TreeView (aabbs : List AABB) (ns : List BVHNode) : ℕ → Multiset ℕ → Prop where
  | leaf (i k : ℕ) (hi : i < ns.length)
      (hleft : (ns.getD i default).left = -1)
      (hright : (ns.getD i default).right = -1)
      (hshape : (ns.getD i default).shape_index = (k : ℤ))
      (hk : k < aabbs.length)
      (hbounds : (ns.getD i default).bounds = aabbs.getD k default)
      (hsize : (ns.getD i default).subtree_size = 1) :
      TreeView aabbs ns i {k}
  | node (i : ℕ) (s₁ s₂ : Multiset ℕ) (hi : i < ns.length)
      (hshape : (ns.getD i default).shape_index = -1)
      (hleft : (ns.getD i default).left = ((i + 1 : ℕ) : ℤ))
      (hright : (ns.getD i default).right = ((i + 2 * Multiset.card s₁ : ℕ) : ℤ))
      (hdisj : Disjoint s₁ s₂)
      (t₁ : TreeView aabbs ns (i + 1) s₁)
      (t₂ : TreeView aabbs ns (i + 2 * Multiset.card s₁) s₂)
      (hsize : (ns.getD i default).subtree_size = Multiset.card s₁ + Multiset.card s₂)
      (hbounds : ∀ k ∈ s₁ + s₂, (ns.getD i default).bounds.subsumes (aabbs.getD k default)) :
      TreeView aabbs ns i (s₁ + s₂)

/-- Verification-only characterisation of the pairs `self_query` emits when
called on roots of leaf-sets `s` and `t`: the normalised index pairs, one
index from each side, with overlapping boxes. -/
def PairsOf (aabbs : List AABB) (s t : Multiset ℕ) (p : ℤ × ℤ) : Prop :=
  ∃ a b : ℕ, a < b ∧ ((a ∈ s ∧ b ∈ t) ∨ (b ∈ s ∧ a ∈ t)) ∧
    (aabbs.getD a default).overlaps (aabbs.getD b default) = true ∧
    p = ((a : ℤ), (b : ℤ))

/-- Verification-only description of a single recorded traversal step of
`BVH::query_with_steps`: a `Prune` records a node whose bounds miss the
query box, a `Visit` an overlapping internal node, and a `LeafTest` an
overlapping leaf whose shape is not the queried one (its shape recorded as
`partner_shape`). -/
def StepOK (ns : List BVHNode) (box : AABB) (qi : ℤ) (st : TraversalStep) : Prop :=
  st.query_shape = qi ∧
  ∃ m : ℕ, m < ns.length ∧ st.node_index = (m : ℤ) ∧
    ((st.action = TraversalAction.Prune ∧
        (ns.getD m default).bounds.overlaps box = false ∧ st.partner_shape = -1) ∨
     (st.action = TraversalAction.Visit ∧ (ns.getD m default).shape_index = -1 ∧
        (ns.getD m default).bounds.overlaps box = true ∧ st.partner_shape = -1) ∨
     (st.action = TraversalAction.LeafTest ∧ 0 ≤ (ns.getD m default).shape_index ∧
        st.partner_shape = (ns.getD m default).shape_index ∧ st.partner_shape ≠ qi ∧
        (ns.getD m default).bounds.overlaps box = true))

/-- Concrete scenario box `A` from the spec. -/
def cA : AABB := ⟨⟨0, 0⟩, ⟨10, 10⟩⟩

/-- Concrete scenario box `B` from the spec. -/
def cB : AABB := ⟨⟨5, 5⟩, ⟨15, 15⟩⟩

/-- Concrete scenario box `C` from the spec. -/
def cC : AABB := ⟨⟨100, 100⟩, ⟨110, 110⟩⟩

/-! Basic facts about `AABB.overlaps`, `AABB.merged` and `AABB.subsumes`. -/

theorem overlaps_iff (a o : AABB) :
    a.overlaps o = true ↔
      a.min.x ≤ o.max.x ∧ o.min.x ≤ a.max.x ∧ a.min.y ≤ o.max.y ∧ o.min.y ≤ a.max.y := by
  simp [AABB.overlaps, ge_iff_le, and_assoc]

theorem overlaps_comm (a b : AABB) : a.overlaps b = b.overlaps a := by
  rw [Bool.eq_iff_iff, overlaps_iff, overlaps_iff]
  tauto

theorem subsumes_refl (a : AABB) : a.subsumes a := by
  exact ⟨le_refl _, le_refl _, le_refl _, le_refl _⟩

theorem subsumes_merged_left {a x : AABB} (h : a.subsumes x) (o : AABB) :
    (a.merged o).subsumes x := by
  obtain ⟨h1, h2, h3, h4⟩ := h
  refine ⟨?_, ?_, ?_, ?_⟩ <;>
    simp only [AABB.subsumes, AABB.merged, Vec2.min, Vec2.max] <;> split <;> linarith

theorem subsumes_merged_right {o x : AABB} (h : o.subsumes x) (a : AABB) :
    (a.merged o).subsumes x := by
  obtain ⟨h1, h2, h3, h4⟩ := h
  refine ⟨?_, ?_, ?_, ?_⟩ <;>
    simp only [AABB.subsumes, AABB.merged, Vec2.min, Vec2.max] <;> split <;> linarith

/-- Overlap of contained boxes lifts to overlap of the containers. -/
theorem overlaps_of_subsumes {A B a b : AABB} (hA : A.subsumes a) (hB : B.subsumes b)
    (h : a.overlaps b = true) : A.overlaps B = true := by
  rw [overlaps_iff] at h ⊢
  obtain ⟨a1, a2, a3, a4⟩ := hA
  obtain ⟨b1, b2, b3, b4⟩ := hB
  obtain ⟨h1, h2, h3, h4⟩ := h
  exact ⟨by linarith, by linarith, by linarith, by linarith⟩

/-- Claim C6: `AABB::overlaps` is symmetric, and because the test uses
closed intervals on both axes, two (valid) boxes that merely touch at an
edge (`a.max.x = b.min.x`, overlapping y-intervals) count as
overlapping. -/
theorem overlaps_symm_and_closed (a b : AABB) :
    a.overlaps b = b.overlaps a ∧
      (a.min.x ≤ a.max.x → b.min.x ≤ b.max.x → a.max.x = b.min.x →
        a.min.y ≤ b.max.y → b.min.y ≤ a.max.y → a.overlaps b = true) := by
  constructor
  · exact overlaps_comm a b
  · intro hva hvb hx hy1 hy2
    rw [overlaps_iff]
    exact ⟨by linarith, by linarith, hy1, hy2⟩

/-- Witness for C6 at concrete boxes: `cA` touches `[(10,0),(20,10)]` at
the edge `x = 10` and the overlap test reports `true`. -/
theorem overlaps_symm_and_closed_witness :
    ((0 : ℚ) ≤ 10 ∧ (10 : ℚ) ≤ 20 ∧ (10 : ℚ) = 10 ∧ (0 : ℚ) ≤ 10 ∧ (0 : ℚ) ≤ 10) ∧
      cA.overlaps ⟨⟨10, 0⟩, ⟨20, 10⟩⟩ = true :=
  ⟨⟨by norm_num, by norm_num, rfl, by norm_num, by norm_num⟩,
    (overlaps_symm_and_closed cA ⟨⟨10, 0⟩, ⟨20, 10⟩⟩).2 (by norm_num [cA]) (by norm_num)
      (by norm_num [cA]) (by norm_num [cA]) (by norm_num [cA])⟩

/-- Claim C7: building from an empty list leaves the tree empty: no nodes,
the no-root sentinel `-1`, and no pairs. -/
theorem build_empty :
    (BVH.build []).nodes.length = 0 ∧ (BVH.build []).root = -1 ∧
      (BVH.build []).find_all_pairs = [] :=
  ⟨rfl, rfl, rfl⟩

/-- Counterexample to claim C8 as stated: in the concrete three-box
scenario the tree depth is not 1 (the median split makes the `B`/`C`
subtree two levels deep). -/
theorem concrete_scenario_depth_counterexample :
    ¬ (BVH.build [cA, cB, cC]).max_depth = 1 :=
  of_decide_eq_true (by with_unfolding_all rfl)

/-- Claim C8 amended: in the concrete scenario the pairs are exactly
`(0, 1)`, the unexcluded query with box `A` returns the set of indices 0
and 1, and the tree has 3 leaves and 2 internal nodes; but `max_depth` is
2, not 1 as claimed. -/
theorem concrete_scenario_amended :
    (BVH.build [cA, cB, cC]).find_all_pairs = [(0, 1)] ∧
      brute_force_pairs [cA, cB, cC] = [(0, 1)] ∧
      ((BVH.build [cA, cB, cC]).query cA (-1)).toFinset = ({0, 1} : Finset ℤ) ∧
      ((BVH.build [cA, cB, cC]).nodes.filter fun nd => 0 ≤ nd.shape_index).length = 3 ∧
      ((BVH.build [cA, cB, cC]).nodes.filter fun nd => nd.shape_index < 0).length = 2 ∧
      (BVH.build [cA, cB, cC]).max_depth = 2 :=
  ⟨by with_unfolding_all rfl, by with_unfolding_all rfl,
    of_decide_eq_true (by with_unfolding_all rfl), by with_unfolding_all rfl,
    by with_unfolding_all rfl, by with_unfolding_all rfl⟩

/-! Helper lemmas about `TreeView`. -/

theorem TreeView.lt_length {aabbs : List AABB} {ns : List BVHNode} {i : ℕ}
    {s : Multiset ℕ} (t : TreeView aabbs ns i s) : i < ns.length := by
  cases t with
  | leaf i k hi hl hr hs hk hb hsz => exact hi
  | node i s₁ s₂ hi hsh hl hr hd t₁ t₂ hsz hb => exact hi

theorem TreeView.card_pos {aabbs : List AABB} {ns : List BVHNode} {i : ℕ}
    {s : Multiset ℕ} (t : TreeView aabbs ns i s) : 1 ≤ Multiset.card s := by
  induction t with
  | leaf i k hi hl hr hs hk hb hsz => simp
  | node i s₁ s₂ hi hsh hl hr hd t₁ t₂ hsz hb ih₁ ih₂ =>
    simp only [Multiset.card_add]
    omega

theorem TreeView.size_eq {aabbs : List AABB} {ns : List BVHNode} {i : ℕ}
    {s : Multiset ℕ} (t : TreeView aabbs ns i s) :
    (ns.getD i default).subtree_size = Multiset.card s := by
  cases t with
  | leaf i k hi hl hr hs hk hb hsz => simpa using hsz
  | node i s₁ s₂ hi hsh hl hr hd t₁ t₂ hsz hb => simpa using hsz

theorem TreeView.shapes_lt {aabbs : List AABB} {ns : List BVHNode} {i : ℕ}
    {s : Multiset ℕ} (t : TreeView aabbs ns i s) : ∀ k ∈ s, k < aabbs.length := by
  induction t with
  | leaf i k hi hl hr hs hk hb hsz =>
    intro k2 hk2
    rw [Multiset.mem_singleton] at hk2
    exact hk2 ▸ hk
  | node i s₁ s₂ hi hsh hl hr hd t₁ t₂ hsz hb ih₁ ih₂ =>
    intro k2 hk2
    rcases Multiset.mem_add.mp hk2 with h | h
    · exact ih₁ k2 h
    · exact ih₂ k2 h

theorem TreeView.subsumes_all {aabbs : List AABB} {ns : List BVHNode} {i : ℕ}
    {s : Multiset ℕ} (t : TreeView aabbs ns i s) :
    ∀ k ∈ s, (ns.getD i default).bounds.subsumes (aabbs.getD k default) := by
  cases t with
  | leaf i k hi hl hr hs hk hb hsz =>
    intro k2 hk2
    rw [Multiset.mem_singleton] at hk2
    rw [hk2, hb]
    exact subsumes_refl _
  | node i s₁ s₂ hi hsh hl hr hd t₁ t₂ hsz hb => exact hb

theorem TreeView.span_le {aabbs : List AABB} {ns : List BVHNode} {i : ℕ}
    {s : Multiset ℕ} (t : TreeView aabbs ns i s) :
    i + (2 * Multiset.card s - 1) ≤ ns.length := by
  induction t with
  | leaf i k hi hl hr hs hk hb hsz => simpa using hi
  | node i s₁ s₂ hi hsh hl hr hd t₁ t₂ hsz hb ih₁ ih₂ =>
    have h₂ := t₂.card_pos
    simp only [Multiset.card_add]
    omega

theorem TreeView.nodup {aabbs : List AABB} {ns : List BVHNode} {i : ℕ}
    {s : Multiset ℕ} (t : TreeView aabbs ns i s) : s.Nodup := by
  induction t with
  | leaf i k hi hl hr hs hk hb hsz => simp
  | node i s₁ s₂ hi hsh hl hr hd t₁ t₂ hsz hb ih₁ ih₂ =>
    rw [Multiset.nodup_add]
    exact ⟨ih₁, ih₂, hd⟩

/-- A `TreeView` survives any arena change that keeps every entry from the
subtree root on unchanged (extension at the end, or overwriting a node
strictly before the root). -/
theorem TreeView.congr {aabbs : List AABB} {ns ns2 : List BVHNode} {i : ℕ}
    {s : Multiset ℕ} (hlen : ns.length ≤ ns2.length) (t : TreeView aabbs ns i s) :
    (∀ j, i ≤ j → j < ns.length → ns2.getD j default = ns.getD j default) →
    TreeView aabbs ns2 i s := by
  induction t with
  | leaf i k hi hl hr hs hk hb hsz =>
    intro hsame
    have e := hsame i (le_refl i) hi
    refine TreeView.leaf i k (lt_of_lt_of_le hi hlen) ?_ ?_ ?_ hk ?_ ?_ <;> rw [e]
    · exact hl
    · exact hr
    · exact hs
    · exact hb
    · exact hsz
  | node i s₁ s₂ hi hsh hl hr hd t₁ t₂ hsz hb ih₁ ih₂ =>
    intro hsame
    have e := hsame i (le_refl i) hi
    refine TreeView.node i s₁ s₂ (lt_of_lt_of_le hi hlen) ?_ ?_ ?_ hd ?_ ?_ ?_ ?_
    · rw [e]; exact hsh
    · rw [e]; exact hl
    · rw [e]; exact hr
    · exact ih₁ (fun j hj hj2 => hsame j (by omega) hj2)
    · exact ih₂ (fun j hj hj2 => hsame j (by omega) hj2)
    · rw [e]; exact hsz
    · intro k hk2; rw [e]; exact hb k hk2

/-! Arena access helpers. -/

theorem getD_append_left {α : Type} [Inhabited α] (l l2 : List α) (j : ℕ)
    (h : j < l.length) : (l ++ l2).getD j default = l.getD j default := by
  rw [List.getD_eq_getElem _ _ (by rw [List.length_append]; omega),
    List.getD_eq_getElem _ _ h]
  exact List.getElem_append_left h

theorem getD_concat_self {α : Type} [Inhabited α] (l : List α) (v : α) :
    (l ++ [v]).getD l.length default = v := by
  rw [List.getD_eq_getElem _ _ (by simp)]
  exact List.getElem_concat_length l v _ rfl _

theorem getD_set_self {α : Type} [Inhabited α] (l : List α) (m : ℕ) (v : α)
    (h : m < l.length) : (l.set m v).getD m default = v := by
  rw [List.getD_eq_getElem _ _ (by simpa using h)]
  exact List.getElem_set_self _

theorem getD_set_ne {α : Type} [Inhabited α] (l : List α) (m j : ℕ) (v : α)
    (h : j ≠ m) : (l.set m v).getD j default = l.getD j default := by
  by_cases hj : j < l.length
  · rw [List.getD_eq_getElem _ _ (by simpa using hj), List.getD_eq_getElem _ _ hj]
    exact List.getElem_set_ne (Ne.symm h) _
  · rw [List.getD_eq_default _ _ (by simpa using hj), List.getD_eq_default _ _ (by omega)]

/-! The bounding box folded up by `build_recursive` encloses every input
box it was folded from. -/

theorem foldl_merged_subsumes_init (aabbs : List AABB) (ks : List ℕ) :
    ∀ (b x : AABB), b.subsumes x →
      (ks.foldl (fun acc k => acc.merged (aabbs.getD k default)) b).subsumes x := by
  induction ks with
  | nil => intro b x h; simpa using h
  | cons k0 ks ih =>
    intro b x h
    simp only [List.foldl_cons]
    exact ih _ _ (subsumes_merged_left h _)

theorem foldl_merged_subsumes_mem (aabbs : List AABB) (ks : List ℕ) :
    ∀ (b : AABB) (k : ℕ), k ∈ ks →
      (ks.foldl (fun acc k => acc.merged (aabbs.getD k default)) b).subsumes
        (aabbs.getD k default) := by
  induction ks with
  | nil => intro b k h; simp at h
  | cons k0 ks ih =>
    intro b k h
    simp only [List.foldl_cons]
    rcases List.mem_cons.mp h with rfl | h2
    · exact foldl_merged_subsumes_init aabbs ks _ _
        (subsumes_merged_right (subsumes_refl _) b)
    · exact ih _ _ h2

/-- Main lemma about `build_recursive`: with fuel at least `indices.length`
it appends exactly `2 * indices.length - 1` nodes, returns the index of the
first of them, leaves the existing prefix untouched, and roots a well-formed
`TreeView` over the multiset of `indices` there. -/
theorem build_recursive_spec (aabbs : List AABB) :
    ∀ (fuel : ℕ) (indices : List ℕ) (depth : ℕ) (st : BVH),
      indices ≠ [] → indices.length ≤ fuel → indices.Nodup →
      (∀ k ∈ indices, k < aabbs.length) →
      (build_recursive aabbs fuel indices depth st).1 = st.nodes.length ∧
      (build_recursive aabbs fuel indices depth st).2.nodes.length
        = st.nodes.length + (2 * indices.length - 1) ∧
      (∀ j, j < st.nodes.length →
        (build_recursive aabbs fuel indices depth st).2.nodes.getD j default
          = st.nodes.getD j default) ∧
      TreeView aabbs (build_recursive aabbs fuel indices depth st).2.nodes
        st.nodes.length (↑indices : Multiset ℕ) := by
  intro fuel
  induction fuel with
  | zero =>
    intro indices depth st hne hlen hnodup hmem
    exact absurd (List.length_eq_zero.mp (Nat.le_zero.mp hlen)) hne
  | succ fuel ih =>
    intro indices depth st hne hlen hnodup hmem
    match indices with
    | [] => exact absurd rfl hne
    | [i0] =>
      simp only [build_recursive]
      have hset : ((st.nodes ++ [BVHNode.init]).set st.nodes.length
            {bounds := aabbs.getD i0 default, depth := depth, shape_index := (i0 : ℤ),
              subtree_size := 1}).getD st.nodes.length default
          = {bounds := aabbs.getD i0 default, depth := depth, shape_index := (i0 : ℤ),
              subtree_size := 1} :=
        getD_set_self _ _ _ (by simp)
      refine ⟨by trivial, ?_, ?_, ?_⟩
      · simp
      · intro j hj
        rw [getD_set_ne _ _ _ _ (by omega), getD_append_left _ _ _ hj]
      · rw [show ((↑[i0] : Multiset ℕ)) = ({i0} : Multiset ℕ) from rfl]
        refine TreeView.leaf _ i0 (by simp) ?_ ?_ ?_ (hmem i0 (by simp)) ?_ ?_ <;>
          rw [hset]
    | i0 :: i1 :: rest2 =>
      simp only [build_recursive]
      set bounds := (i1 :: rest2).foldl (fun b k => b.merged (aabbs.getD k default))
        (aabbs.getD i0 default) with hboundsdef
      set split_x := decide (bounds.height ≤ bounds.width) with hsplitdef
      set sorted := sortIndices aabbs split_x (i0 :: i1 :: rest2) with hsortdef
      set mid := sorted.length / 2 with hmiddef
      set st1 : BVH := ⟨st.nodes ++ [BVHNode.init], Max.max st.max_depth depth⟩ with hst1def
      set res1 := build_recursive aabbs fuel (sorted.take mid) (depth + 1) st1 with hres1def
      set res2 := build_recursive aabbs fuel (sorted.drop mid) (depth + 1) res1.2 with hres2def
      have hsortperm : List.Perm sorted (i0 :: i1 :: rest2) := by
        rw [hsortdef]; exact perm_sortIndices aabbs split_x _
      have hsortlen : sorted.length = rest2.length + 2 := by
        rw [hsortperm.length_eq]; simp
      have hsortnodup : sorted.Nodup := (hsortperm.nodup_iff).mpr hnodup
      have hsortmem : ∀ k ∈ sorted, k < aabbs.length := fun k hk =>
        hmem k (hsortperm.mem_iff.mp hk)
      have hmid1 : 1 ≤ mid := by rw [hmiddef, hsortlen]; omega
      have hmidlt : mid < sorted.length := by
        rw [hmiddef]; exact Nat.div_lt_self (by omega) (by omega)
      have hTlen : (sorted.take mid).length = mid := by
        rw [List.length_take]; omega
      have hDlen : (sorted.drop mid).length = sorted.length - mid := by
        rw [List.length_drop]
      have hlentot : rest2.length + 2 ≤ fuel + 1 := by simpa using hlen
      obtain ⟨e1idx, e1len, e1pre, e1view⟩ :=
        ih (sorted.take mid) (depth + 1) st1
          (by intro hcon; rw [hcon] at hTlen; simp at hTlen; omega)
          (by rw [hTlen]; omega)
          (hsortnodup.sublist (List.take_sublist _ _))
          (fun k hk => hsortmem k (List.mem_of_mem_take hk))
      obtain ⟨e2idx, e2len, e2pre, e2view⟩ :=
        ih (sorted.drop mid) (depth + 1) res1.2
          (by intro hcon; rw [hcon] at hDlen; simp at hDlen; omega)
          (by rw [hDlen]; omega)
          (hsortnodup.sublist (List.drop_sublist _ _))
          (fun k hk => hsortmem k (List.mem_of_mem_drop hk))
      rw [← hres1def] at e1idx e1len e1pre e1view
      rw [← hres2def] at e2idx e2len e2pre e2view
      have hlen1 : st1.nodes.length = st.nodes.length + 1 := by rw [hst1def]; simp
      have hr1 : res1.1 = st.nodes.length + 1 := by rw [e1idx, hlen1]
      have hlen2 : res1.2.nodes.length = st.nodes.length + 2 * mid := by
        rw [e1len, hlen1, hTlen]; omega
      have hr2 : res2.1 = st.nodes.length + 2 * mid := by rw [e2idx, hlen2]
      have hlen3 : res2.2.nodes.length = st.nodes.length + 2 * sorted.length - 1 := by
        rw [e2len, hDlen, hlen2]; omega
      have hcard1 : Multiset.card (↑(sorted.take mid) : Multiset ℕ) = mid := by
        rw [Multiset.coe_card, hTlen]
      have hcard2 : Multiset.card (↑(sorted.drop mid) : Multiset ℕ)
          = sorted.length - mid := by rw [Multiset.coe_card, hDlen]
      -- transport the left view onto the arena after the right recursion
      rw [hlen1] at e1view
      have v1 : TreeView aabbs res2.2.nodes (st.nodes.length + 1)
          (↑(sorted.take mid) : Multiset ℕ) :=
        e1view.congr (by omega) (fun j hj hjlen => e2pre j hjlen)
      have v2 : TreeView aabbs res2.2.nodes (st.nodes.length + 2 * mid)
          (↑(sorted.drop mid) : Multiset ℕ) := by
        rw [hlen2] at e2view; exact e2view
      refine ⟨by trivial, ?_, ?_, ?_⟩
      · rw [List.length_set, hlen3]
        simp only [List.length_cons]
        omega
      · intro j hj
        rw [getD_set_ne _ _ _ _ (by omega)]
        rw [e2pre j (by omega), e1pre j (by omega), hst1def]
        exact getD_append_left _ _ _ hj
      · -- the final arena: the parent node is written at `st.nodes.length`
        have hsz1 : (res2.2.nodes.getD res1.1 default).subtree_size = mid := by
          rw [hr1, v1.size_eq, hcard1]
        have hsz2 : (res2.2.nodes.getD res2.1 default).subtree_size
            = sorted.length - mid := by
          rw [hr2, v2.size_eq, hcard2]
        have hsetv : ((res2.2.nodes.set st.nodes.length
              {bounds := bounds, depth := depth, left := (res1.1 : ℤ),
                right := (res2.1 : ℤ),
                subtree_size := (res2.2.nodes.getD res1.1 default).subtree_size +
                  (res2.2.nodes.getD res2.1 default).subtree_size}).getD
                st.nodes.length default)
            = {bounds := bounds, depth := depth, left := (res1.1 : ℤ),
                right := (res2.1 : ℤ),
                subtree_size := (res2.2.nodes.getD res1.1 default).subtree_size +
                  (res2.2.nodes.getD res2.1 default).subtree_size} :=
          getD_set_self _ _ _ (by omega)
        have hmulti : (↑(sorted.take mid) : Multiset ℕ) + (↑(sorted.drop mid) : Multiset ℕ)
            = (↑(i0 :: i1 :: rest2) : Multiset ℕ) := by
          rw [Multiset.coe_add]
          rw [List.take_append_drop]
          exact Multiset.coe_eq_coe.mpr hsortperm
        rw [← hmulti]
        refine TreeView.node st.nodes.length _ _ (by rw [List.length_set]; omega)
          ?_ ?_ ?_ ?_ ?_ ?_ ?_ ?_
        · rw [hsetv]
        · rw [hsetv, hr1]
        · rw [hsetv, hr2, hcard1]
        · rw [Multiset.coe_disjoint]
          exact List.disjoint_take_drop hsortnodup (le_refl mid)
        · exact v1.congr (by rw [List.length_set])
            (fun j hj hjlen => getD_set_ne _ _ _ _ (by omega))
        · rw [hcard1]
          exact v2.congr (by rw [List.length_set])
            (fun j hj hjlen => getD_set_ne _ _ _ _ (by omega))
        · rw [hsetv, hsz1, hsz2, hcard1, hcard2]
        · intro k hk
          rw [hsetv]
          have hk2 : k ∈ (i0 :: i1 :: rest2) := by
            rw [hmulti] at hk
            simpa using hk
          rcases List.mem_cons.mp hk2 with rfl | h2
          · exact foldl_merged_subsumes_init aabbs _ _ _ (subsumes_refl _)
          · exact foldl_merged_subsumes_mem aabbs _ _ _ h2

/-- `BVH.build` on a nonempty input produces an arena of `2n - 1` nodes
carrying a well-formed `TreeView` of all shape indices at the root. -/
theorem build_view (aabbs : List AABB) (h : aabbs ≠ []) :
    (BVH.build aabbs).nodes.length = 2 * aabbs.length - 1 ∧
      TreeView aabbs (BVH.build aabbs).nodes 0 (↑(List.range aabbs.length)) := by
  have hne : (List.range aabbs.length) ≠ [] := by
    simp only [ne_eq, List.range_eq_nil]
    intro hcon
    exact h (List.length_eq_zero.mp hcon)
  obtain ⟨h1, h2, h3, h4⟩ :=
    build_recursive_spec aabbs aabbs.length (List.range aabbs.length) 0 ⟨[], 0⟩ hne
      (by simp) (List.nodup_range _) (fun k hk => List.mem_range.mp hk)
  have hbuild : BVH.build aabbs
      = (build_recursive aabbs aabbs.length (List.range aabbs.length) 0 ⟨[], 0⟩).2 := by
    rw [BVH.build, if_neg]
    simp only [List.isEmpty_iff]
    exact h
  rw [hbuild]
  constructor
  · rw [h2]; simp
  · simpa using h4

/-- Every arena slot covered by a `TreeView` span satisfies the structural
node invariant. -/
theorem TreeView.covers {aabbs : List AABB} {ns : List BVHNode} {i : ℕ}
    {s : Multiset ℕ} (t : TreeView aabbs ns i s) :
    ∀ j, i ≤ j → j < i + (2 * Multiset.card s - 1) →
      NodeWF aabbs ns (ns.getD j default) := by
  induction t with
  | leaf i k hi hl hr hs hk hb hsz =>
    intro j hj1 hj2
    have hji : j = i := by simp at hj2; omega
    subst hji
    left
    refine ⟨?_, hl, hr, ?_, hsz⟩
    · rw [hs]; exact Int.natCast_nonneg k
    · rw [hs]; simpa using hk
  | node i s₁ s₂ hi hsh hl hr hd t₁ t₂ hsz hb ih₁ ih₂ =>
    intro j hj1 hj2
    have hc1 := t₁.card_pos
    have hc2 := t₂.card_pos
    rcases eq_or_lt_of_le hj1 with hji | hlt
    · subst hji
      right
      have el : ((((i + 1 : ℕ)) : ℤ)).toNat = i + 1 := by omega
      have er : ((((i + 2 * Multiset.card s₁ : ℕ)) : ℤ)).toNat
          = i + 2 * Multiset.card s₁ := by omega
      refine ⟨hsh, ?_, ?_, ?_, ?_, ?_⟩
      · rw [hl]; exact Int.natCast_nonneg _
      · rw [hl, el]; exact t₁.lt_length
      · rw [hr]; exact Int.natCast_nonneg _
      · rw [hr, er]; exact t₂.lt_length
      · rw [hsz, hl, hr, el, er, t₁.size_eq, t₂.size_eq]
    · simp only [Multiset.card_add] at hj2
      by_cases hcase : j < i + 1 + (2 * Multiset.card s₁ - 1)
      · exact ih₁ j (by omega) hcase
      · exact ih₂ j (by omega) (by omega)

/-- The arena slice spanned by a `TreeView` carries exactly the view's
shape multiset at its leaves. -/
theorem TreeView.slice_shapes {aabbs : List AABB} {ns : List BVHNode} {i : ℕ}
    {s : Multiset ℕ} (t : TreeView aabbs ns i s) :
    (↑(((ns.drop i).take (2 * Multiset.card s - 1)).filterMap leafShape) : Multiset ℤ)
      = s.map (fun k : ℕ => (k : ℤ)) := by
  induction t with
  | leaf i k hi hl hr hs hk hb hsz =>
    have hdrop : ns.drop i = ns.getD i default :: ns.drop (i + 1) := by
      rw [List.getD_eq_getElem _ _ hi]
      exact List.drop_eq_getElem_cons hi
    have hone : 2 * Multiset.card ({k} : Multiset ℕ) - 1 = 1 := by simp
    have hsome : leafShape (ns.getD i default) = some ((k : ℤ)) := by
      unfold leafShape
      rw [hs, if_pos (Int.natCast_nonneg k)]
    rw [hone, hdrop]
    rw [show (ns.getD i default :: ns.drop (i + 1)).take 1 = [ns.getD i default] from rfl]
    simp only [List.filterMap_cons, hsome, List.filterMap_nil]
    simp
  | node i s₁ s₂ hi hsh hl hr hd t₁ t₂ hsz hb ih₁ ih₂ =>
    have hc1 := t₁.card_pos
    have hc2 := t₂.card_pos
    have hsplit : 2 * Multiset.card (s₁ + s₂) - 1
        = 1 + ((2 * Multiset.card s₁ - 1) + (2 * Multiset.card s₂ - 1)) := by
      simp only [Multiset.card_add]; omega
    have hdrop : ns.drop i = ns.getD i default :: ns.drop (i + 1) := by
      rw [List.getD_eq_getElem _ _ hi]
      exact List.drop_eq_getElem_cons hi
    have hdd : (ns.drop (i + 1)).drop (2 * Multiset.card s₁ - 1)
        = ns.drop (i + 2 * Multiset.card s₁) := by
      rw [List.drop_drop]
      congr 1
      omega
    rw [hsplit, List.take_add, List.take_add, hdrop]
    have htake1 : (ns.getD i default :: ns.drop (i + 1)).take 1
        = [ns.getD i default] := rfl
    have hdrop1 : (ns.getD i default :: ns.drop (i + 1)).drop 1 = ns.drop (i + 1) := rfl
    rw [htake1, hdrop1, hdd]
    have hnone : leafShape (ns.getD i default) = none := by
      unfold leafShape
      rw [hsh, if_neg (by norm_num)]
    simp only [List.filterMap_append, List.filterMap_cons, hnone, List.filterMap_nil,
      List.nil_append]
    rw [← Multiset.coe_add, ih₁, ih₂, Multiset.map_add]

theorem length_filterMap_leafShape (l : List BVHNode) :
    (l.filterMap leafShape).length = (l.filter fun nd => 0 ≤ nd.shape_index).length := by
  induction l with
  | nil => rfl
  | cons nd l ih =>
    by_cases h : 0 ≤ nd.shape_index
    · simp [leafShape, List.filterMap_cons, List.filter_cons, h, ih]
    · simp [leafShape, List.filterMap_cons, List.filter_cons, h, ih]

theorem filter_shape_split (l : List BVHNode) :
    (l.filter fun nd => 0 ≤ nd.shape_index).length +
      (l.filter fun nd => nd.shape_index < 0).length = l.length := by
  induction l with
  | nil => rfl
  | cons nd l ih =>
    by_cases h : 0 ≤ nd.shape_index
    · have h2 : ¬ nd.shape_index < 0 := by omega
      simp only [List.filter_cons, h, h2, decide_eq_true_eq, if_pos, if_neg,
        decide_eq_false_iff_not]
      simp [h, h2, List.length_cons]
      omega
    · have h2 : nd.shape_index < 0 := by omega
      simp [List.filter_cons, h, h2, List.length_cons]
      omega

theorem count_leafShape (k : ℕ) (l : List BVHNode) :
    (l.filterMap leafShape).count ((k : ℤ))
      = (l.filter fun nd => nd.shape_index = (k : ℤ)).length := by
  induction l with
  | nil => rfl
  | cons nd l ih =>
    by_cases h : 0 ≤ nd.shape_index
    · have hsome : leafShape nd = some nd.shape_index := by
        unfold leafShape
        rw [if_pos h]
      by_cases he : nd.shape_index = (k : ℤ)
      · simp [List.filterMap_cons, hsome, List.filter_cons, he, List.count_cons, ih]
      · simp [List.filterMap_cons, hsome, List.filter_cons, he, List.count_cons, ih]
    · have hnone : leafShape nd = none := by
        unfold leafShape
        rw [if_neg h]
      have he : ¬ nd.shape_index = (k : ℤ) := by
        intro hcon
        rw [hcon] at h
        exact h (Int.natCast_nonneg k)
      simp [List.filterMap_cons, hnone, List.filter_cons, he, ih]

/-- Claim C4: after any `build()`, every arena node satisfies the structural
invariant: a leaf (`shape_index >= 0`) has both child indices absent, a valid
shape index and `subtree_size = 1`; an internal node has two valid child
indices and `subtree_size` equal to the sum of its children's sizes. -/
theorem build_structural_invariant (aabbs : List AABB) :
    ∀ nd ∈ (BVH.build aabbs).nodes, NodeWF aabbs (BVH.build aabbs).nodes nd := by
  intro nd hnd
  by_cases h : aabbs = []
  · subst h
    simp [BVH.build] at hnd
  · obtain ⟨hlen, hview⟩ := build_view aabbs h
    have hn : 1 ≤ aabbs.length := List.length_pos.mpr h
    obtain ⟨j, hj, hget⟩ := List.getElem_of_mem hnd
    have hcard : Multiset.card (↑(List.range aabbs.length) : Multiset ℕ)
        = aabbs.length := by
      rw [Multiset.coe_card, List.length_range]
    have hwf := hview.covers j (Nat.zero_le j) (by rw [hcard]; omega)
    rw [List.getD_eq_getElem _ _ hj, hget] at hwf
    exact hwf

/-- Witness for C4: the root node of the concrete three-box scenario is in
the arena and satisfies the invariant. -/
theorem build_structural_invariant_witness :
    ({bounds := ⟨⟨0, 0⟩, ⟨110, 110⟩⟩, left := 1, right := 2, shape_index := -1,
        depth := 0, subtree_size := 3} : BVHNode) ∈ (BVH.build [cA, cB, cC]).nodes ∧
      NodeWF [cA, cB, cC] (BVH.build [cA, cB, cC]).nodes
        {bounds := ⟨⟨0, 0⟩, ⟨110, 110⟩⟩, left := 1, right := 2, shape_index := -1,
          depth := 0, subtree_size := 3} :=
  ⟨of_decide_eq_true (by with_unfolding_all rfl),
    build_structural_invariant [cA, cB, cC] _ (of_decide_eq_true (by with_unfolding_all rfl))⟩

/-- Claim C10: a nonempty build yields exactly `2n - 1` nodes (`n` leaves,
`n - 1` internal), the root is arena index 0, and every shape index labels
exactly one leaf. -/
theorem arena_counts_and_root (aabbs : List AABB) (h : aabbs ≠ []) :
    (BVH.build aabbs).nodes.length = 2 * aabbs.length - 1 ∧
      (BVH.build aabbs).root = 0 ∧
      ((BVH.build aabbs).nodes.filter fun nd => 0 ≤ nd.shape_index).length
        = aabbs.length ∧
      ((BVH.build aabbs).nodes.filter fun nd => nd.shape_index < 0).length
        = aabbs.length - 1 ∧
      ∀ k, k < aabbs.length →
        ((BVH.build aabbs).nodes.filter fun nd => nd.shape_index = (k : ℤ)).length = 1 := by
  obtain ⟨hlen, hview⟩ := build_view aabbs h
  have hn : 1 ≤ aabbs.length := List.length_pos.mpr h
  have hcard : Multiset.card (↑(List.range aabbs.length) : Multiset ℕ)
      = aabbs.length := by
    rw [Multiset.coe_card, List.length_range]
  have hslice := hview.slice_shapes
  rw [hcard] at hslice
  have htake : ((BVH.build aabbs).nodes.drop 0).take (2 * aabbs.length - 1)
      = (BVH.build aabbs).nodes := by
    rw [List.drop_zero]
    exact List.take_of_length_le (by omega)
  rw [htake] at hslice
  have hleaves : ((BVH.build aabbs).nodes.filter fun nd => 0 ≤ nd.shape_index).length
      = aabbs.length := by
    have hc := congrArg Multiset.card hslice
    rw [Multiset.coe_card, Multiset.card_map, Multiset.coe_card, List.length_range] at hc
    rw [← length_filterMap_leafShape]
    exact hc
  refine ⟨hlen, ?_, hleaves, ?_, ?_⟩
  · rw [BVH.root, if_neg]
    simp only [List.isEmpty_iff]
    intro hcon
    rw [hcon] at hlen
    simp at hlen
    omega
  · have h2 := filter_shape_split (BVH.build aabbs).nodes
    omega
  · intro k hk
    have hcount := congrArg (Multiset.count ((k : ℤ))) hslice
    rw [Multiset.coe_count, count_leafShape] at hcount
    rw [hcount]
    rw [Multiset.count_map_eq_count' _ _ Nat.cast_injective, Multiset.coe_count]
    exact List.count_eq_one_of_mem (List.nodup_range _) (List.mem_range.mpr hk)

/-- Witness for C10 at the concrete scenario: the input is nonempty and the
root is reported at index 0. -/
theorem arena_counts_and_root_witness :
    [cA, cB, cC] ≠ [] ∧ (BVH.build [cA, cB, cC]).root = 0 :=
  ⟨by simp, (arena_counts_and_root [cA, cB, cC] (by simp)).2.1⟩

/-! Correctness of the stack-driven `query` loop. -/

theorem queryGo_nil (ns : List BVHNode) (box : AABB) (ex : ℤ) (fuel : ℕ) :
    queryGo ns box ex fuel [] = [] := by
  cases fuel <;> rfl

/-- One loop step of `queryGo` popping a valid index. -/
theorem queryGo_cons_valid (ns : List BVHNode) (box : AABB) (ex : ℤ) (fuel : ℕ)
    (i : ℕ) (hi : i < ns.length) (rest : List ℤ) :
    queryGo ns box ex (fuel + 1) ((i : ℤ) :: rest)
      = (if (ns.getD i default).bounds.overlaps box = false
          then queryGo ns box ex fuel rest
          else if 0 ≤ (ns.getD i default).shape_index then
            (if (ns.getD i default).shape_index ≠ ex then
              [(ns.getD i default).shape_index] else []) ++ queryGo ns box ex fuel rest
          else queryGo ns box ex fuel
            ((ns.getD i default).right :: (ns.getD i default).left :: rest)) := by
  simp only [queryGo, Int.toNat_natCast]
  rw [if_neg (by omega : ¬ ((i : ℤ) < 0)), if_pos hi]

/-- Processing the root of a `TreeView` subtree from the top of the stack
consumes some `cost ≤ 2|s| - 1` fuel and emits exactly the overlapping,
non-excluded shapes of the subtree (each at most once). -/
theorem queryGo_step {aabbs : List AABB} {ns : List BVHNode} (box : AABB) (ex : ℤ)
    {i : ℕ} {s : Multiset ℕ} (t : TreeView aabbs ns i s) :
    ∃ (cost : ℕ) (out : List ℤ),
      cost ≤ 2 * Multiset.card s - 1 ∧
      (∀ (fuel : ℕ) (rest : List ℤ),
        queryGo ns box ex (cost + fuel) ((i : ℤ) :: rest)
          = out ++ queryGo ns box ex fuel rest) ∧
      (∀ j : ℤ, j ∈ out ↔ ∃ k ∈ s, j = (k : ℤ) ∧
        (aabbs.getD k default).overlaps box = true ∧ j ≠ ex) ∧
      out.Nodup := by
  induction t with
  | leaf i k hi hl hr hs hk hb hsz =>
    by_cases hov : (ns.getD i default).bounds.overlaps box = false
    · refine ⟨1, [], by simp, ?_, ?_, by simp⟩
      · intro fuel rest
        rw [show 1 + fuel = fuel + 1 by omega, queryGo_cons_valid ns box ex fuel i hi rest,
          if_pos hov]
        simp
      · intro j
        simp only [List.not_mem_nil, false_iff]
        rintro ⟨k2, hk2, rfl, hov2, hne⟩
        rw [Multiset.mem_singleton] at hk2
        subst hk2
        rw [hb, hov2] at hov
        simp at hov
    · have hov2 : (ns.getD i default).bounds.overlaps box = true := by
        revert hov; cases (ns.getD i default).bounds.overlaps box <;> simp
      have hovk : (aabbs.getD k default).overlaps box = true := by rw [← hb]; exact hov2
      by_cases hne : (↑k : ℤ) ≠ ex
      · refine ⟨1, [(k : ℤ)], by simp, ?_, ?_, by simp⟩
        · intro fuel rest
          rw [show 1 + fuel = fuel + 1 by omega,
            queryGo_cons_valid ns box ex fuel i hi rest, if_neg (by rw [hov2]; simp),
            if_pos (by rw [hs]; exact Int.natCast_nonneg k), hs, if_pos hne]
        · intro j
          simp only [List.mem_singleton]
          constructor
          · rintro rfl
            exact ⟨k, Multiset.mem_singleton_self k, rfl, hovk, hne⟩
          · rintro ⟨k2, hk2, rfl, _, _⟩
            rw [Multiset.mem_singleton] at hk2
            rw [hk2]
      · refine ⟨1, [], by simp, ?_, ?_, by simp⟩
        · intro fuel rest
          rw [show 1 + fuel = fuel + 1 by omega,
            queryGo_cons_valid ns box ex fuel i hi rest, if_neg (by rw [hov2]; simp),
            if_pos (by rw [hs]; exact Int.natCast_nonneg k), hs, if_neg hne]
        · intro j
          simp only [List.not_mem_nil, false_iff]
          rintro ⟨k2, hk2, rfl, _, hne2⟩
          rw [Multiset.mem_singleton] at hk2
          subst hk2
          exact hne2 (by omega)
  | node i s₁ s₂ hi hsh hl hr hd t₁ t₂ hsz hb ih₁ ih₂ =>
    obtain ⟨c₁, out₁, hc₁b, heq₁, hchar₁, hnd₁⟩ := ih₁
    obtain ⟨c₂, out₂, hc₂b, heq₂, hchar₂, hnd₂⟩ := ih₂
    have hp1 := t₁.card_pos
    have hp2 := t₂.card_pos
    by_cases hov : (ns.getD i default).bounds.overlaps box = false
    · refine ⟨1, [], ?_, ?_, ?_, by simp⟩
      · simp only [Multiset.card_add]; omega
      · intro fuel rest
        rw [show 1 + fuel = fuel + 1 by omega, queryGo_cons_valid ns box ex fuel i hi rest,
          if_pos hov]
        simp
      · intro j
        simp only [List.not_mem_nil, false_iff]
        rintro ⟨k2, hk2, rfl, hov2, hne⟩
        have hlift := overlaps_of_subsumes (hb k2 hk2) (subsumes_refl box) hov2
        rw [hov] at hlift
        simp at hlift
    · have hov2 : (ns.getD i default).bounds.overlaps box = true := by
        revert hov; cases (ns.getD i default).bounds.overlaps box <;> simp
      refine ⟨1 + c₂ + c₁, out₂ ++ out₁, ?_, ?_, ?_, ?_⟩
      · simp only [Multiset.card_add]; omega
      · intro fuel rest
        rw [show 1 + c₂ + c₁ + fuel = (c₂ + (c₁ + fuel)) + 1 by omega,
          queryGo_cons_valid ns box ex _ i hi rest, if_neg (by rw [hov2]; simp),
          if_neg (by rw [hsh]; omega), hl, hr,
          heq₂ (c₁ + fuel) (((i + 1 : ℕ) : ℤ) :: rest), heq₁ fuel rest,
          List.append_assoc]
      · intro j
        simp only [List.mem_append, hchar₁, hchar₂]
        constructor
        · rintro (⟨k2, hk2, rfl, hovk, hne⟩ | ⟨k2, hk2, rfl, hovk, hne⟩)
          · exact ⟨k2, Multiset.mem_add.mpr (Or.inr hk2), rfl, hovk, hne⟩
          · exact ⟨k2, Multiset.mem_add.mpr (Or.inl hk2), rfl, hovk, hne⟩
        · rintro ⟨k2, hk2, rfl, hovk, hne⟩
          rcases Multiset.mem_add.mp hk2 with h2 | h2
          · exact Or.inr ⟨k2, h2, rfl, hovk, hne⟩
          · exact Or.inl ⟨k2, h2, rfl, hovk, hne⟩
      · rw [List.nodup_append]
        refine ⟨hnd₂, hnd₁, ?_⟩
        intro j hj2 hj1
        obtain ⟨k2, hk2, rfl, _, _⟩ := (hchar₂ j).mp hj2
        obtain ⟨k1, hk1, he, _, _⟩ := (hchar₁ (k2 : ℤ)).mp hj1
        have : k1 = k2 := by omega
        subst this
        exact (Multiset.disjoint_left.mp hd hk1) hk2

/-- Membership specification of `BVH.query` after `BVH.build`: exactly the
valid shape indices whose box overlaps the query box, minus the excluded
index, without duplicates. -/
theorem query_mem_spec (aabbs : List AABB) (box : AABB) (ex : ℤ) :
    (∀ j : ℤ, j ∈ (BVH.build aabbs).query box ex ↔
      ∃ k : ℕ, k < aabbs.length ∧ j = (k : ℤ) ∧
        (aabbs.getD k default).overlaps box = true ∧ j ≠ ex) ∧
    ((BVH.build aabbs).query box ex).Nodup := by
  by_cases h : aabbs = []
  · subst h
    have hq : (BVH.build ([] : List AABB)).query box ex = [] := rfl
    rw [hq]
    refine ⟨?_, List.nodup_nil⟩
    intro j
    simp only [List.not_mem_nil, false_iff]
    rintro ⟨k, hk, _⟩
    simp at hk
  · obtain ⟨hlen, hview⟩ := build_view aabbs h
    have hn : 1 ≤ aabbs.length := List.length_pos.mpr h
    obtain ⟨cost, out, hcost, heq, hchar, hnd⟩ := queryGo_step box ex hview
    simp only [Nat.cast_zero] at heq
    have hcard : Multiset.card (↑(List.range aabbs.length) : Multiset ℕ)
        = aabbs.length := by
      rw [Multiset.coe_card, List.length_range]
    rw [hcard] at hcost
    have hnotempty : ¬ ((BVH.build aabbs).nodes.isEmpty = true) := by
      rw [List.isEmpty_iff]
      intro hc
      rw [hc] at hlen
      simp at hlen
      omega
    have hque : (BVH.build aabbs).query box ex = out := by
      rw [BVH.query, if_neg hnotempty]
      rw [show 2 * (BVH.build aabbs).nodes.length + 1
          = cost + (2 * (BVH.build aabbs).nodes.length + 1 - cost) by omega]
      rw [heq _ [], queryGo_nil]
      simp
    rw [hque]
    refine ⟨?_, hnd⟩
    intro j
    rw [hchar j]
    constructor
    · rintro ⟨k, hk, rfl, hov, hne⟩
      exact ⟨k, by simpa using hk, rfl, hov, hne⟩
    · rintro ⟨k, hk, rfl, hov, hne⟩
      exact ⟨k, by simpa using hk, rfl, hov, hne⟩

/-- Claim C2: for every built tree and query box, `query(box, exclude)`
returns exactly the set of shape indices whose AABB overlaps the box minus
the excluded index (without duplicates); in particular the excluded index
never appears, even when the box is the excluded shape's own AABB. -/
theorem query_exact_and_excludes (aabbs : List AABB) (box : AABB) (ex : ℤ) :
    (∀ j : ℤ, j ∈ (BVH.build aabbs).query box ex ↔
      ∃ k : ℕ, k < aabbs.length ∧ j = (k : ℤ) ∧
        (aabbs.getD k default).overlaps box = true ∧ j ≠ ex) ∧
      ((BVH.build aabbs).query box ex).Nodup ∧
      ex ∉ (BVH.build aabbs).query box ex := by
  obtain ⟨hchar, hnd⟩ := query_mem_spec aabbs box ex
  refine ⟨hchar, hnd, ?_⟩
  intro hcon
  obtain ⟨k, hk, hje, hov, hne⟩ := (hchar ex).mp hcon
  exact hne rfl

/-- Witness for C2: querying the concrete tree with shape 0's own box while
excluding shape 0 does not report shape 0 (but does report shape 1). -/
theorem query_exact_and_excludes_witness :
    (0 : ℤ) ∉ (BVH.build [cA, cB, cC]).query cA 0 ∧
      (1 : ℤ) ∈ (BVH.build [cA, cB, cC]).query cA 0 :=
  ⟨(query_exact_and_excludes [cA, cB, cC] cA 0).2.2,
    of_decide_eq_true (by with_unfolding_all rfl)⟩

/-! Correctness of the `query_with_steps` traversal recording. -/

theorem stepsGo_nil (ns : List BVHNode) (box : AABB) (qi : ℤ) (fuel : ℕ) :
    stepsGo ns box qi fuel [] = [] := by
  cases fuel <;> rfl

/-- One loop step of `stepsGo` popping a valid index. -/
theorem stepsGo_cons_valid (ns : List BVHNode) (box : AABB) (qi : ℤ) (fuel : ℕ)
    (i : ℕ) (hi : i < ns.length) (rest : List ℤ) :
    stepsGo ns box qi (fuel + 1) ((i : ℤ) :: rest)
      = (if (ns.getD i default).bounds.overlaps box = false
          then ⟨(i : ℤ), TraversalAction.Prune, qi, -1⟩ :: stepsGo ns box qi fuel rest
          else if 0 ≤ (ns.getD i default).shape_index then
            (if (ns.getD i default).shape_index ≠ qi then
              [⟨(i : ℤ), TraversalAction.LeafTest, qi, (ns.getD i default).shape_index⟩]
             else []) ++ stepsGo ns box qi fuel rest
          else ⟨(i : ℤ), TraversalAction.Visit, qi, -1⟩ ::
            stepsGo ns box qi fuel
              ((ns.getD i default).left :: (ns.getD i default).right :: rest)) := by
  simp only [stepsGo, Int.toNat_natCast]
  rw [if_neg (by omega : ¬ ((i : ℤ) < 0)), if_pos hi]

/-- Processing the root of a `TreeView` subtree from the top of the stack in
`stepsGo` consumes some `cost ≤ 2|s| - 1` fuel and emits a well-formed step
trail whose `LeafTest` partners are exactly the overlapping, non-excluded
shapes of the subtree. -/
theorem stepsGo_step {aabbs : List AABB} {ns : List BVHNode} (box : AABB) (qi : ℤ)
    {i : ℕ} {s : Multiset ℕ} (t : TreeView aabbs ns i s) :
    ∃ (cost : ℕ) (out : List TraversalStep),
      cost ≤ 2 * Multiset.card s - 1 ∧
      (∀ (fuel : ℕ) (rest : List ℤ),
        stepsGo ns box qi (cost + fuel) ((i : ℤ) :: rest)
          = out ++ stepsGo ns box qi fuel rest) ∧
      (∀ st ∈ out, StepOK ns box qi st) ∧
      (∀ j : ℤ,
        (∃ st ∈ out, st.action = TraversalAction.LeafTest ∧ st.partner_shape = j)
          ↔ ∃ k ∈ s, j = (k : ℤ) ∧ (aabbs.getD k default).overlaps box = true ∧ j ≠ qi) := by
  induction t with
  | leaf i k hi hl hr hs hk hb hsz =>
    by_cases hov : (ns.getD i default).bounds.overlaps box = false
    · refine ⟨1, [⟨(i : ℤ), TraversalAction.Prune, qi, -1⟩], by simp, ?_, ?_, ?_⟩
      · intro fuel rest
        rw [show 1 + fuel = fuel + 1 by omega,
          stepsGo_cons_valid ns box qi fuel i hi rest, if_pos hov]
        rfl
      · intro st hst
        rw [List.mem_singleton] at hst
        subst hst
        exact ⟨rfl, i, hi, rfl, Or.inl ⟨rfl, hov, rfl⟩⟩
      · intro j
        constructor
        · rintro ⟨st, hst, hact, _⟩
          rw [List.mem_singleton] at hst
          subst hst
          simp at hact
        · rintro ⟨k2, hk2, rfl, hov2, hne⟩
          rw [Multiset.mem_singleton] at hk2
          subst hk2
          rw [hb, hov2] at hov
          simp at hov
    · have hov2 : (ns.getD i default).bounds.overlaps box = true := by
        revert hov; cases (ns.getD i default).bounds.overlaps box <;> simp
      have hovk : (aabbs.getD k default).overlaps box = true := by rw [← hb]; exact hov2
      by_cases hne : (↑k : ℤ) ≠ qi
      · refine ⟨1, [⟨(i : ℤ), TraversalAction.LeafTest, qi, (k : ℤ)⟩], by simp, ?_, ?_, ?_⟩
        · intro fuel rest
          rw [show 1 + fuel = fuel + 1 by omega,
            stepsGo_cons_valid ns box qi fuel i hi rest, if_neg (by rw [hov2]; simp),
            if_pos (by rw [hs]; exact Int.natCast_nonneg k), hs, if_pos hne]
        · intro st hst
          rw [List.mem_singleton] at hst
          subst hst
          refine ⟨rfl, i, hi, rfl, Or.inr (Or.inr ⟨rfl, ?_, ?_, hne, hov2⟩)⟩
          · rw [hs]; exact Int.natCast_nonneg k
          · rw [hs]
        · intro j
          constructor
          · rintro ⟨st, hst, hact, hpart⟩
            rw [List.mem_singleton] at hst
            subst hst
            exact ⟨k, Multiset.mem_singleton_self k, hpart.symm, hovk, hpart ▸ hne⟩
          · rintro ⟨k2, hk2, rfl, _, _⟩
            rw [Multiset.mem_singleton] at hk2
            exact ⟨⟨(i : ℤ), TraversalAction.LeafTest, qi, (k : ℤ)⟩,
              List.mem_singleton_self _, rfl, by rw [hk2]⟩
      · refine ⟨1, [], by simp, ?_, ?_, ?_⟩
        · intro fuel rest
          rw [show 1 + fuel = fuel + 1 by omega,
            stepsGo_cons_valid ns box qi fuel i hi rest, if_neg (by rw [hov2]; simp),
            if_pos (by rw [hs]; exact Int.natCast_nonneg k), hs, if_neg hne]
        · intro st hst
          simp at hst
        · intro j
          constructor
          · rintro ⟨st, hst, _⟩
            simp at hst
          · rintro ⟨k2, hk2, rfl, _, hne2⟩
            rw [Multiset.mem_singleton] at hk2
            rw [hk2] at hne2
            exact absurd hne2 hne
  | node i s₁ s₂ hi hsh hl hr hd t₁ t₂ hsz hb ih₁ ih₂ =>
    obtain ⟨c₁, out₁, hc₁b, heq₁, hok₁, hchar₁⟩ := ih₁
    obtain ⟨c₂, out₂, hc₂b, heq₂, hok₂, hchar₂⟩ := ih₂
    have hp1 := t₁.card_pos
    have hp2 := t₂.card_pos
    by_cases hov : (ns.getD i default).bounds.overlaps box = false
    · refine ⟨1, [⟨(i : ℤ), TraversalAction.Prune, qi, -1⟩], ?_, ?_, ?_, ?_⟩
      · simp only [Multiset.card_add]; omega
      · intro fuel rest
        rw [show 1 + fuel = fuel + 1 by omega,
          stepsGo_cons_valid ns box qi fuel i hi rest, if_pos hov]
        rfl
      · intro st hst
        rw [List.mem_singleton] at hst
        subst hst
        exact ⟨rfl, i, hi, rfl, Or.inl ⟨rfl, hov, rfl⟩⟩
      · intro j
        constructor
        · rintro ⟨st, hst, hact, _⟩
          rw [List.mem_singleton] at hst
          subst hst
          simp at hact
        · rintro ⟨k2, hk2, rfl, hov2, hne⟩
          have hlift := overlaps_of_subsumes (hb k2 hk2) (subsumes_refl box) hov2
          rw [hov] at hlift
          simp at hlift
    · have hov2 : (ns.getD i default).bounds.overlaps box = true := by
        revert hov; cases (ns.getD i default).bounds.overlaps box <;> simp
      refine ⟨1 + c₁ + c₂,
        ⟨(i : ℤ), TraversalAction.Visit, qi, -1⟩ :: (out₁ ++ out₂), ?_, ?_, ?_, ?_⟩
      · simp only [Multiset.card_add]; omega
      · intro fuel rest
        rw [show 1 + c₁ + c₂ + fuel = (c₁ + (c₂ + fuel)) + 1 by omega,
          stepsGo_cons_valid ns box qi _ i hi rest, if_neg (by rw [hov2]; simp),
          if_neg (by rw [hsh]; omega), hl, hr,
          heq₁ (c₂ + fuel) (((i + 2 * Multiset.card s₁ : ℕ) : ℤ) :: rest),
          heq₂ fuel rest, List.cons_append, List.append_assoc]
      · intro st hst
        rcases List.mem_cons.mp hst with rfl | hst2
        · exact ⟨rfl, i, hi, rfl, Or.inr (Or.inl ⟨rfl, hsh, hov2, rfl⟩)⟩
        · rcases List.mem_append.mp hst2 with h2 | h2
          · exact hok₁ st h2
          · exact hok₂ st h2
      · intro j
        constructor
        · rintro ⟨st, hst, hact, hpart⟩
          rcases List.mem_cons.mp hst with rfl | hst2
          · simp at hact
          · rcases List.mem_append.mp hst2 with h2 | h2
            · obtain ⟨k2, hk2, he, hovk, hne⟩ := (hchar₁ j).mp ⟨st, h2, hact, hpart⟩
              exact ⟨k2, Multiset.mem_add.mpr (Or.inl hk2), he, hovk, hne⟩
            · obtain ⟨k2, hk2, he, hovk, hne⟩ := (hchar₂ j).mp ⟨st, h2, hact, hpart⟩
              exact ⟨k2, Multiset.mem_add.mpr (Or.inr hk2), he, hovk, hne⟩
        · rintro ⟨k2, hk2, rfl, hovk, hne⟩
          rcases Multiset.mem_add.mp hk2 with h2 | h2
          · obtain ⟨st, hst, hact, hpart⟩ := (hchar₁ (k2 : ℤ)).mpr ⟨k2, h2, rfl, hovk, hne⟩
            exact ⟨st, List.mem_cons_of_mem _ (List.mem_append_left _ hst), hact, hpart⟩
          · obtain ⟨st, hst, hact, hpart⟩ := (hchar₂ (k2 : ℤ)).mpr ⟨k2, h2, rfl, hovk, hne⟩
            exact ⟨st, List.mem_cons_of_mem _ (List.mem_append_right _ hst), hact, hpart⟩

/-- Top-level specification of `BVH.query_with_steps` on a built tree:
every step is well-formed and the `LeafTest` partners are exactly the
overlapping, non-excluded shape indices. -/
theorem query_with_steps_spec (aabbs : List AABB) (box : AABB) (qi : ℤ) :
    (∀ st ∈ (BVH.build aabbs).query_with_steps box qi,
        StepOK (BVH.build aabbs).nodes box qi st) ∧
    (∀ j : ℤ,
      (∃ st ∈ (BVH.build aabbs).query_with_steps box qi,
          st.action = TraversalAction.LeafTest ∧ st.partner_shape = j)
        ↔ ∃ k : ℕ, k < aabbs.length ∧ j = (k : ℤ) ∧
            (aabbs.getD k default).overlaps box = true ∧ j ≠ qi) := by
  by_cases h : aabbs = []
  · subst h
    have hq : (BVH.build ([] : List AABB)).query_with_steps box qi = [] := rfl
    rw [hq]
    constructor
    · intro st hst
      simp at hst
    · intro j
      constructor
      · rintro ⟨st, hst, _⟩
        simp at hst
      · rintro ⟨k, hk, _⟩
        simp at hk
  · obtain ⟨hlen, hview⟩ := build_view aabbs h
    have hn : 1 ≤ aabbs.length := List.length_pos.mpr h
    obtain ⟨cost, out, hcost, heq, hok, hchar⟩ := stepsGo_step box qi hview
    simp only [Nat.cast_zero] at heq
    have hcard : Multiset.card (↑(List.range aabbs.length) : Multiset ℕ)
        = aabbs.length := by
      rw [Multiset.coe_card, List.length_range]
    rw [hcard] at hcost
    have hnotempty : ¬ ((BVH.build aabbs).nodes.isEmpty = true) := by
      rw [List.isEmpty_iff]
      intro hc
      rw [hc] at hlen
      simp at hlen
      omega
    have hque : (BVH.build aabbs).query_with_steps box qi = out := by
      rw [BVH.query_with_steps, if_neg hnotempty]
      rw [show 2 * (BVH.build aabbs).nodes.length + 1
          = cost + (2 * (BVH.build aabbs).nodes.length + 1 - cost) by omega]
      rw [heq _ [], stepsGo_nil]
      simp
    rw [hque]
    constructor
    · exact hok
    · intro j
      rw [hchar j]
      constructor
      · rintro ⟨k, hk, rfl, hov, hne⟩
        exact ⟨k, by simpa using hk, rfl, hov, hne⟩
      · rintro ⟨k, hk, rfl, hov, hne⟩
        exact ⟨k, by simpa using hk, rfl, hov, hne⟩

/-- Claim C3: in every recorded trace, every `Prune` step names a node whose
bounds do not overlap the query box, every `LeafTest` step names a leaf
whose shape (recorded as `partner_shape`) differs from `query_index`, and
the set of `LeafTest` partners equals the result set of
`query(box, query_index)`. -/
theorem query_with_steps_trace_correct (aabbs : List AABB) (box : AABB) (qi : ℤ) :
    (∀ st ∈ (BVH.build aabbs).query_with_steps box qi,
      st.action = TraversalAction.Prune →
        ∃ m : ℕ, m < (BVH.build aabbs).nodes.length ∧ st.node_index = (m : ℤ) ∧
          ((BVH.build aabbs).nodes.getD m default).bounds.overlaps box = false) ∧
    (∀ st ∈ (BVH.build aabbs).query_with_steps box qi,
      st.action = TraversalAction.LeafTest →
        ∃ m : ℕ, m < (BVH.build aabbs).nodes.length ∧ st.node_index = (m : ℤ) ∧
          0 ≤ ((BVH.build aabbs).nodes.getD m default).shape_index ∧
          st.partner_shape = ((BVH.build aabbs).nodes.getD m default).shape_index ∧
          st.partner_shape ≠ qi) ∧
    (∀ j : ℤ,
      (∃ st ∈ (BVH.build aabbs).query_with_steps box qi,
          st.action = TraversalAction.LeafTest ∧ st.partner_shape = j)
        ↔ j ∈ (BVH.build aabbs).query box qi) := by
  obtain ⟨hok, hchar⟩ := query_with_steps_spec aabbs box qi
  obtain ⟨hqchar, _⟩ := query_mem_spec aabbs box qi
  refine ⟨?_, ?_, ?_⟩
  · intro st hst hact
    obtain ⟨_, m, hm, hidx, hcase⟩ := hok st hst
    rcases hcase with ⟨_, hov, _⟩ | ⟨hv, _⟩ | ⟨hlt, _⟩
    · exact ⟨m, hm, hidx, hov⟩
    · rw [hact] at hv; simp at hv
    · rw [hact] at hlt; simp at hlt
  · intro st hst hact
    obtain ⟨_, m, hm, hidx, hcase⟩ := hok st hst
    rcases hcase with ⟨hp, _⟩ | ⟨hv, _⟩ | ⟨_, hge, hpart, hne, _⟩
    · rw [hact] at hp; simp at hp
    · rw [hact] at hv; simp at hv
    · exact ⟨m, hm, hidx, hge, hpart, hne⟩
  · intro j
    rw [hchar j, hqchar j]

/-- Witness for C3 at the concrete scenario: the trace with box `A` and
query index 0 implies shape 1 (and exactly the query's results) among the
`LeafTest` partners. -/
theorem query_with_steps_trace_correct_witness :
    (∃ st ∈ (BVH.build [cA, cB, cC]).query_with_steps cA 0,
        st.action = TraversalAction.LeafTest ∧ st.partner_shape = 1)
      ↔ (1 : ℤ) ∈ (BVH.build [cA, cB, cC]).query cA 0 :=
  (query_with_steps_trace_correct [cA, cB, cC] cA 0).2.2 1

/-! Claim C9: step-per-pop correspondence between `query_with_steps` and
the popped-index trace. -/

theorem popTraceGo_nil (ns : List BVHNode) (box : AABB) (fuel : ℕ) :
    popTraceGo ns box fuel [] = [] := by
  cases fuel <;> rfl

/-- The recorded steps are in order-preserving bijection with the popped
stack entries that `stepEmitted` keeps: this holds for any fuel and any
stack since both loops branch identically. -/
theorem stepsGo_map_eq_popTrace_filter (ns : List BVHNode) (box : AABB) (qi : ℤ) :
    ∀ (fuel : ℕ) (stack : List ℤ),
      (stepsGo ns box qi fuel stack).map TraversalStep.node_index
        = (popTraceGo ns box fuel stack).filter (stepEmitted ns box qi) := by
  intro fuel
  induction fuel with
  | zero =>
    intro stack
    cases stack <;> rfl
  | succ fuel ih =>
    intro stack
    cases stack with
    | nil => rfl
    | cons idx rest =>
      by_cases h0 : idx < 0
      · have hemit : stepEmitted ns box qi idx = false := by
          unfold stepEmitted
          rw [if_pos h0]
        simp only [stepsGo, popTraceGo, if_pos h0, List.filter_cons, hemit]
        simp [ih]
      · by_cases h1 : idx.toNat < ns.length
        · by_cases hov : (ns.getD idx.toNat default).bounds.overlaps box = false
          · have hemit : stepEmitted ns box qi idx = true := by
              unfold stepEmitted
              rw [if_neg h0, if_pos h1, if_pos hov]
            simp only [stepsGo, popTraceGo, if_neg h0, if_pos h1, if_pos hov,
              List.filter_cons, hemit]
            simp [ih]
          · by_cases hleaf : 0 ≤ (ns.getD idx.toNat default).shape_index
            · by_cases hne : (ns.getD idx.toNat default).shape_index ≠ qi
              · have hemit : stepEmitted ns box qi idx = true := by
                  unfold stepEmitted
                  rw [if_neg h0, if_pos h1, if_neg hov, if_pos hleaf]
                  exact decide_eq_true hne
                simp only [stepsGo, popTraceGo, if_neg h0, if_pos h1, if_neg hov,
                  if_pos hleaf, if_pos hne, List.filter_cons, hemit]
                simp [ih]
              · have hemit : stepEmitted ns box qi idx = false := by
                  unfold stepEmitted
                  rw [if_neg h0, if_pos h1, if_neg hov, if_pos hleaf]
                  rw [decide_eq_false_iff_not]
                  exact hne
                simp only [stepsGo, popTraceGo, if_neg h0, if_pos h1, if_neg hov,
                  if_pos hleaf, if_neg hne, List.filter_cons, hemit]
                simp [ih]
            · have hemit : stepEmitted ns box qi idx = true := by
                unfold stepEmitted
                rw [if_neg h0, if_pos h1, if_neg hov, if_neg hleaf]
              simp only [stepsGo, popTraceGo, if_neg h0, if_pos h1, if_neg hov,
                if_neg hleaf, List.filter_cons, hemit]
              simp [ih]
        · have hemit : stepEmitted ns box qi idx = false := by
            unfold stepEmitted
            rw [if_neg h0, if_neg h1]
          simp only [stepsGo, popTraceGo, if_neg h0, if_neg h1, List.filter_cons, hemit]
          simp [ih]

/-- Claim C9: `query_with_steps` appends exactly one step per popped valid
node — Prune for a non-overlapping node, Visit for an overlapping internal
node, LeafTest for an overlapping foreign leaf — and none for the leaf whose
`shape_index` equals `query_index` (or for an invalid index); formally, the
step trail's node indices are the popped-index trace filtered by
`stepEmitted`. -/
theorem steps_one_per_popped_node (aabbs : List AABB) (box : AABB) (qi : ℤ) :
    ((BVH.build aabbs).query_with_steps box qi).map TraversalStep.node_index
      = ((BVH.build aabbs).popTrace box).filter
          (stepEmitted (BVH.build aabbs).nodes box qi) := by
  rw [BVH.query_with_steps, BVH.popTrace]
  by_cases h : (BVH.build aabbs).nodes.isEmpty
  · rw [if_pos h, if_pos h]
    rfl
  · rw [if_neg h, if_neg h]
    exact stepsGo_map_eq_popTrace_filter _ _ _ _ _

/-! Correctness of `self_query` / `find_all_pairs`. -/

/-- A view rooted at a node whose `shape_index` is non-negative is a leaf
view. -/
theorem TreeView.leaf_inv {aabbs : List AABB} {ns : List BVHNode} {i : ℕ}
    {s : Multiset ℕ} (t : TreeView aabbs ns i s)
    (h : 0 ≤ (ns.getD i default).shape_index) :
    ∃ k : ℕ, s = {k} ∧ k < aabbs.length ∧
      (ns.getD i default).shape_index = (k : ℤ) ∧
      (ns.getD i default).bounds = aabbs.getD k default := by
  cases t with
  | leaf i k hi hl hr hs hk hb hsz => exact ⟨k, rfl, hk, hs, hb⟩
  | node i s₁ s₂ hi hsh hl hr hd t₁ t₂ hsz hb =>
    rw [hsh] at h
    omega

/-- A view rooted at a node whose `shape_index` is negative is an internal
view. -/
theorem TreeView.node_inv {aabbs : List AABB} {ns : List BVHNode} {i : ℕ}
    {s : Multiset ℕ} (t : TreeView aabbs ns i s)
    (h : ¬ 0 ≤ (ns.getD i default).shape_index) :
    ∃ s₁ s₂ : Multiset ℕ, s = s₁ + s₂ ∧
      (ns.getD i default).left = ((i + 1 : ℕ) : ℤ) ∧
      (ns.getD i default).right = ((i + 2 * Multiset.card s₁ : ℕ) : ℤ) ∧
      Disjoint s₁ s₂ ∧ TreeView aabbs ns (i + 1) s₁ ∧
      TreeView aabbs ns (i + 2 * Multiset.card s₁) s₂ ∧
      (ns.getD i default).subtree_size = Multiset.card s₁ + Multiset.card s₂ := by
  cases t with
  | leaf i k hi hl hr hs hk hb hsz =>
    rw [hs] at h
    exact absurd (Int.natCast_nonneg k) h
  | node i s₁ s₂ hi hsh hl hr hd t₁ t₂ hsz hb =>
    exact ⟨s₁, s₂, rfl, hl, hr, hd, t₁, t₂, hsz⟩

theorem PairsOf_add_right (aabbs : List AABB) (s t₁ t₂ : Multiset ℕ) (p : ℤ × ℤ) :
    PairsOf aabbs s (t₁ + t₂) p ↔ PairsOf aabbs s t₁ p ∨ PairsOf aabbs s t₂ p := by
  constructor
  · rintro ⟨i, j, hij, hmem, hov, rfl⟩
    rcases hmem with ⟨hi, hj⟩ | ⟨hj, hi⟩
    · rcases Multiset.mem_add.mp hj with h2 | h2
      · exact Or.inl ⟨i, j, hij, Or.inl ⟨hi, h2⟩, hov, rfl⟩
      · exact Or.inr ⟨i, j, hij, Or.inl ⟨hi, h2⟩, hov, rfl⟩
    · rcases Multiset.mem_add.mp hi with h2 | h2
      · exact Or.inl ⟨i, j, hij, Or.inr ⟨hj, h2⟩, hov, rfl⟩
      · exact Or.inr ⟨i, j, hij, Or.inr ⟨hj, h2⟩, hov, rfl⟩
  · rintro (⟨i, j, hij, hmem, hov, rfl⟩ | ⟨i, j, hij, hmem, hov, rfl⟩)
    · rcases hmem with ⟨hi, hj⟩ | ⟨hj, hi⟩
      · exact ⟨i, j, hij, Or.inl ⟨hi, Multiset.mem_add.mpr (Or.inl hj)⟩, hov, rfl⟩
      · exact ⟨i, j, hij, Or.inr ⟨hj, Multiset.mem_add.mpr (Or.inl hi)⟩, hov, rfl⟩
    · rcases hmem with ⟨hi, hj⟩ | ⟨hj, hi⟩
      · exact ⟨i, j, hij, Or.inl ⟨hi, Multiset.mem_add.mpr (Or.inr hj)⟩, hov, rfl⟩
      · exact ⟨i, j, hij, Or.inr ⟨hj, Multiset.mem_add.mpr (Or.inr hi)⟩, hov, rfl⟩

theorem PairsOf_add_left (aabbs : List AABB) (s₁ s₂ t : Multiset ℕ) (p : ℤ × ℤ) :
    PairsOf aabbs (s₁ + s₂) t p ↔ PairsOf aabbs s₁ t p ∨ PairsOf aabbs s₂ t p := by
  constructor
  · rintro ⟨i, j, hij, hmem, hov, rfl⟩
    rcases hmem with ⟨hi, hj⟩ | ⟨hj, hi⟩
    · rcases Multiset.mem_add.mp hi with h2 | h2
      · exact Or.inl ⟨i, j, hij, Or.inl ⟨h2, hj⟩, hov, rfl⟩
      · exact Or.inr ⟨i, j, hij, Or.inl ⟨h2, hj⟩, hov, rfl⟩
    · rcases Multiset.mem_add.mp hj with h2 | h2
      · exact Or.inl ⟨i, j, hij, Or.inr ⟨h2, hi⟩, hov, rfl⟩
      · exact Or.inr ⟨i, j, hij, Or.inr ⟨h2, hi⟩, hov, rfl⟩
  · rintro (⟨i, j, hij, hmem, hov, rfl⟩ | ⟨i, j, hij, hmem, hov, rfl⟩)
    · rcases hmem with ⟨hi, hj⟩ | ⟨hj, hi⟩
      · exact ⟨i, j, hij, Or.inl ⟨Multiset.mem_add.mpr (Or.inl hi), hj⟩, hov, rfl⟩
      · exact ⟨i, j, hij, Or.inr ⟨Multiset.mem_add.mpr (Or.inl hj), hi⟩, hov, rfl⟩
    · rcases hmem with ⟨hi, hj⟩ | ⟨hj, hi⟩
      · exact ⟨i, j, hij, Or.inl ⟨Multiset.mem_add.mpr (Or.inr hi), hj⟩, hov, rfl⟩
      · exact ⟨i, j, hij, Or.inr ⟨Multiset.mem_add.mpr (Or.inr hj), hi⟩, hov, rfl⟩

theorem PairsOf_diag_add (aabbs : List AABB) (s₁ s₂ : Multiset ℕ) (p : ℤ × ℤ) :
    PairsOf aabbs (s₁ + s₂) (s₁ + s₂) p
      ↔ PairsOf aabbs s₁ s₁ p ∨ PairsOf aabbs s₂ s₂ p ∨ PairsOf aabbs s₁ s₂ p := by
  constructor
  · rintro ⟨i, j, hij, hmem, hov, rfl⟩
    have hm2 : i ∈ s₁ + s₂ ∧ j ∈ s₁ + s₂ := by
      rcases hmem with ⟨hi, hj⟩ | ⟨hj, hi⟩
      · exact ⟨hi, hj⟩
      · exact ⟨hi, hj⟩
    rcases Multiset.mem_add.mp hm2.1 with hi | hi <;>
      rcases Multiset.mem_add.mp hm2.2 with hj | hj
    · exact Or.inl ⟨i, j, hij, Or.inl ⟨hi, hj⟩, hov, rfl⟩
    · exact Or.inr (Or.inr ⟨i, j, hij, Or.inl ⟨hi, hj⟩, hov, rfl⟩)
    · exact Or.inr (Or.inr ⟨i, j, hij, Or.inr ⟨hj, hi⟩, hov, rfl⟩)
    · exact Or.inr (Or.inl ⟨i, j, hij, Or.inl ⟨hi, hj⟩, hov, rfl⟩)
  · have lift : ∀ (i : ℕ), i ∈ s₁ ∨ i ∈ s₂ → i ∈ s₁ + s₂ := fun i h =>
      Multiset.mem_add.mpr h
    rintro (⟨i, j, hij, hmem, hov, rfl⟩ | ⟨i, j, hij, hmem, hov, rfl⟩ |
      ⟨i, j, hij, hmem, hov, rfl⟩)
    · refine ⟨i, j, hij, ?_, hov, rfl⟩
      rcases hmem with ⟨hi, hj⟩ | ⟨hj, hi⟩
      · exact Or.inl ⟨lift i (Or.inl hi), lift j (Or.inl hj)⟩
      · exact Or.inr ⟨lift j (Or.inl hj), lift i (Or.inl hi)⟩
    · refine ⟨i, j, hij, ?_, hov, rfl⟩
      rcases hmem with ⟨hi, hj⟩ | ⟨hj, hi⟩
      · exact Or.inl ⟨lift i (Or.inr hi), lift j (Or.inr hj)⟩
      · exact Or.inr ⟨lift j (Or.inr hj), lift i (Or.inr hi)⟩
    · refine ⟨i, j, hij, ?_, hov, rfl⟩
      rcases hmem with ⟨hi, hj⟩ | ⟨hj, hi⟩
      · exact Or.inl ⟨lift i (Or.inl hi), lift j (Or.inr hj)⟩
      · exact Or.inr ⟨lift j (Or.inl hj), lift i (Or.inr hi)⟩

/-- Two pair lists characterised by `PairsOf` over membership-incompatible
multiset pairs share no element. -/
theorem pairs_disjoint_of_chars {aabbs : List AABB} {l₁ l₂ : List (ℤ × ℤ)}
    {s t u v : Multiset ℕ}
    (h₁ : ∀ p, p ∈ l₁ ↔ PairsOf aabbs s t p)
    (h₂ : ∀ p, p ∈ l₂ ↔ PairsOf aabbs u v p)
    (hdis : ∀ i j : ℕ, ((i ∈ s ∧ j ∈ t) ∨ (j ∈ s ∧ i ∈ t)) →
      ((i ∈ u ∧ j ∈ v) ∨ (j ∈ u ∧ i ∈ v)) → False) :
    l₁.Disjoint l₂ := by
  intro p hp1 hp2
  obtain ⟨i, j, hij, hmem, _, rfl⟩ := (h₁ p).mp hp1
  obtain ⟨i2, j2, hij2, hmem2, _, heq⟩ := (h₂ _).mp hp2
  have e1 : (i : ℤ) = (i2 : ℤ) := congrArg Prod.fst heq
  have e2 : (j : ℤ) = (j2 : ℤ) := congrArg Prod.snd heq
  have ei : i = i2 := by omega
  have ej : j = j2 := by omega
  subst ei
  subst ej
  exact hdis i j hmem hmem2

/-- One recursion step of `self_query` on two valid indices. -/
theorem self_query_valid (ns : List BVHNode) (fuel : ℕ) (a b : ℕ)
    (ha : a < ns.length) (hb : b < ns.length) :
    self_query ns (fuel + 1) (a : ℤ) (b : ℤ)
      = (if (ns.getD a default).bounds.overlaps (ns.getD b default).bounds = false
          then []
         else if 0 ≤ (ns.getD a default).shape_index ∧
              0 ≤ (ns.getD b default).shape_index then
           if (ns.getD a default).shape_index ≠ (ns.getD b default).shape_index then
             [(Min.min (ns.getD a default).shape_index (ns.getD b default).shape_index,
               Max.max (ns.getD a default).shape_index (ns.getD b default).shape_index)]
           else []
         else if (a : ℤ) = (b : ℤ) then
           self_query ns fuel (ns.getD a default).left (ns.getD a default).left ++
             self_query ns fuel (ns.getD a default).right (ns.getD a default).right ++
             self_query ns fuel (ns.getD a default).left (ns.getD a default).right
         else if 0 ≤ (ns.getD a default).shape_index then
           self_query ns fuel (a : ℤ) (ns.getD b default).left ++
             self_query ns fuel (a : ℤ) (ns.getD b default).right
         else if 0 ≤ (ns.getD b default).shape_index then
           self_query ns fuel (ns.getD a default).left (b : ℤ) ++
             self_query ns fuel (ns.getD a default).right (b : ℤ)
         else if (ns.getD b default).subtree_size ≤ (ns.getD a default).subtree_size then
           self_query ns fuel (ns.getD a default).left (b : ℤ) ++
             self_query ns fuel (ns.getD a default).right (b : ℤ)
         else
           self_query ns fuel (a : ℤ) (ns.getD b default).left ++
             self_query ns fuel (a : ℤ) (ns.getD b default).right) := by
  simp only [self_query, Int.toNat_natCast]
  rw [if_neg (by omega : ¬ ((a : ℤ) < 0 ∨ (b : ℤ) < 0)), if_pos ⟨ha, hb⟩]

/-- Master lemma for `self_query`: called on the roots of two well-formed
subtree views that are either identical or span-disjoint, with enough fuel,
it emits exactly the normalised overlapping index pairs with one index from
each side — each pair at most once. -/
theorem self_query_spec (aabbs : List AABB) (ns : List BVHNode) :
    ∀ (m : ℕ) (a b : ℕ) (s t : Multiset ℕ),
      TreeView aabbs ns a s → TreeView aabbs ns b t →
      Multiset.card s + Multiset.card t ≤ m →
      ((a = b ∧ s = t) ∨
        ((a + (2 * Multiset.card s - 1) ≤ b ∨ b + (2 * Multiset.card t - 1) ≤ a) ∧
          Disjoint s t)) →
      ∀ fuel : ℕ, 2 * (Multiset.card s + Multiset.card t) ≤ fuel →
      (self_query ns fuel (a : ℤ) (b : ℤ)).Nodup ∧
      ∀ p : ℤ × ℤ, p ∈ self_query ns fuel (a : ℤ) (b : ℤ) ↔ PairsOf aabbs s t p := by
  intro m
  induction m with
  | zero =>
    intro a b s t tv1 tv2 hm hrel fuel hfuel
    have h1 := tv1.card_pos
    have h2 := tv2.card_pos
    omega
  | succ m ih =>
    intro a b s t tv1 tv2 hm hrel fuel hfuel
    have hca := tv1.card_pos
    have hcb := tv2.card_pos
    obtain ⟨f, rfl⟩ : ∃ f, fuel = f + 1 := ⟨fuel - 1, by omega⟩
    rw [self_query_valid ns f a b tv1.lt_length tv2.lt_length]
    by_cases hov : (ns.getD a default).bounds.overlaps (ns.getD b default).bounds = false
    · rw [if_pos hov]
      refine ⟨List.nodup_nil, ?_⟩
      intro p
      simp only [List.not_mem_nil, false_iff]
      rintro ⟨i, j, hij, hmem, hovij, rfl⟩
      rcases hmem with ⟨hi, hj⟩ | ⟨hj, hi⟩
      · have hlift := overlaps_of_subsumes (tv1.subsumes_all i hi)
          (tv2.subsumes_all j hj) hovij
        rw [hov] at hlift
        simp at hlift
      · have hovji : (aabbs.getD j default).overlaps (aabbs.getD i default) = true := by
          rw [overlaps_comm]; exact hovij
        have hlift := overlaps_of_subsumes (tv1.subsumes_all j hj)
          (tv2.subsumes_all i hi) hovji
        rw [hov] at hlift
        simp at hlift
    · rw [if_neg hov]
      have hov2 : (ns.getD a default).bounds.overlaps (ns.getD b default).bounds
          = true := by
        revert hov
        cases (ns.getD a default).bounds.overlaps (ns.getD b default).bounds <;> simp
      by_cases hab : 0 ≤ (ns.getD a default).shape_index ∧
          0 ≤ (ns.getD b default).shape_index
      · rw [if_pos hab]
        obtain ⟨k, hks, hklen, hksh, hkb⟩ := tv1.leaf_inv hab.1
        obtain ⟨k2, hkt, hk2len, hk2sh, hk2b⟩ := tv2.leaf_inv hab.2
        subst hks
        subst hkt
        have hovk : (aabbs.getD k default).overlaps (aabbs.getD k2 default) = true := by
          rw [← hkb, ← hk2b]; exact hov2
        rw [hksh, hk2sh]
        by_cases hkk : k = k2
        · subst hkk
          rw [if_neg (by omega)]
          refine ⟨List.nodup_nil, ?_⟩
          intro p
          simp only [List.not_mem_nil, false_iff]
          rintro ⟨i, j, hij, hmem, _, rfl⟩
          rcases hmem with ⟨hi, hj⟩ | ⟨hj, hi⟩ <;>
            · rw [Multiset.mem_singleton] at hi hj
              omega
        · rw [if_pos (by omega : ((k : ℤ) ≠ (k2 : ℤ)))]
          refine ⟨List.nodup_singleton _, ?_⟩
          intro p
          rw [List.mem_singleton]
          rcases Nat.lt_or_ge k k2 with hlt | hge
          · rw [min_eq_left (by omega : (k : ℤ) ≤ (k2 : ℤ)),
              max_eq_right (by omega : (k : ℤ) ≤ (k2 : ℤ))]
            constructor
            · rintro rfl
              exact ⟨k, k2, hlt, Or.inl ⟨Multiset.mem_singleton_self k,
                Multiset.mem_singleton_self k2⟩, hovk, rfl⟩
            · rintro ⟨i, j, hij, hmem, _, rfl⟩
              rcases hmem with ⟨hi, hj⟩ | ⟨hj, hi⟩
              · rw [Multiset.mem_singleton] at hi hj
                subst hi
                subst hj
                rfl
              · rw [Multiset.mem_singleton] at hi hj
                subst hi
                subst hj
                exact absurd hij (by omega)
          · have hlt2 : k2 < k := by omega
            rw [min_eq_right (by omega : (k2 : ℤ) ≤ (k : ℤ)),
              max_eq_left (by omega : (k2 : ℤ) ≤ (k : ℤ))]
            constructor
            · rintro rfl
              refine ⟨k2, k, hlt2, Or.inr ⟨Multiset.mem_singleton_self k,
                Multiset.mem_singleton_self k2⟩, ?_, rfl⟩
              rw [overlaps_comm]
              exact hovk
            · rintro ⟨i, j, hij, hmem, _, rfl⟩
              rcases hmem with ⟨hi, hj⟩ | ⟨hj, hi⟩
              · rw [Multiset.mem_singleton] at hi hj
                subst hi
                subst hj
                exact absurd hij (by omega)
              · rw [Multiset.mem_singleton] at hi hj
                subst hi
                subst hj
                rfl
      · rw [if_neg hab]
        by_cases heqab : a = b
        · subst heqab
          rw [if_pos rfl]
          have hst : s = t := by
            rcases hrel with ⟨_, h⟩ | ⟨hsp, _⟩
            · exact h
            · exfalso
              rcases hsp with h1 | h1 <;> omega
          subst hst
          have hAint : ¬ 0 ≤ (ns.getD a default).shape_index := fun h => hab ⟨h, h⟩
          obtain ⟨s₁, s₂, hsum, hlv, hrv, hdis12, t₁, t₂, _⟩ := tv1.node_inv hAint
          subst hsum
          simp only [Multiset.card_add] at hm hfuel
          have hc1 := t₁.card_pos
          have hc2 := t₂.card_pos
          rw [hlv, hrv]
          obtain ⟨nd₁, ch₁⟩ := ih (a + 1) (a + 1) s₁ s₁ t₁ t₁ (by omega)
            (Or.inl ⟨rfl, rfl⟩) f (by omega)
          obtain ⟨nd₂, ch₂⟩ := ih (a + 2 * Multiset.card s₁) (a + 2 * Multiset.card s₁)
            s₂ s₂ t₂ t₂ (by omega) (Or.inl ⟨rfl, rfl⟩) f (by omega)
          obtain ⟨nd₃, ch₃⟩ := ih (a + 1) (a + 2 * Multiset.card s₁) s₁ s₂ t₁ t₂
            (by omega) (Or.inr ⟨Or.inl (by omega), hdis12⟩) f (by omega)
          constructor
          · rw [List.nodup_append, List.nodup_append, List.disjoint_append_left]
            refine ⟨⟨nd₁, nd₂, ?_⟩, nd₃, ?_, ?_⟩
            · refine pairs_disjoint_of_chars ch₁ ch₂ ?_
              intro i j hm1 hm2
              have hi1 : i ∈ s₁ := by tauto
              have hi2 : i ∈ s₂ := by tauto
              exact Multiset.disjoint_left.mp hdis12 hi1 hi2
            · refine pairs_disjoint_of_chars ch₁ ch₃ ?_
              intro i j hm1 hm2
              have hi1 : i ∈ s₁ ∧ j ∈ s₁ := by tauto
              rcases hm2 with ⟨_, hj2⟩ | ⟨_, hi2⟩
              · exact Multiset.disjoint_left.mp hdis12 hi1.2 hj2
              · exact Multiset.disjoint_left.mp hdis12 hi1.1 hi2
            · refine pairs_disjoint_of_chars ch₂ ch₃ ?_
              intro i j hm1 hm2
              have hi1 : i ∈ s₂ ∧ j ∈ s₂ := by tauto
              rcases hm2 with ⟨hi2, _⟩ | ⟨hj2, _⟩
              · exact Multiset.disjoint_left.mp hdis12 hi2 hi1.1
              · exact Multiset.disjoint_left.mp hdis12 hj2 hi1.2
          · intro p
            rw [List.mem_append, List.mem_append, ch₁ p, ch₂ p, ch₃ p, PairsOf_diag_add]
            exact or_assoc
        · rw [if_neg (by omega : ¬ ((a : ℤ) = (b : ℤ)))]
          obtain ⟨hspan, hdisj⟩ :
              (a + (2 * Multiset.card s - 1) ≤ b ∨
                b + (2 * Multiset.card t - 1) ≤ a) ∧ Disjoint s t := by
            rcases hrel with ⟨h1, _⟩ | h
            · exact absurd h1 heqab
            · exact h
          have hdescendB : ¬ 0 ≤ (ns.getD b default).shape_index →
              (self_query ns f (a : ℤ) (ns.getD b default).left ++
                self_query ns f (a : ℤ) (ns.getD b default).right).Nodup ∧
              ∀ p : ℤ × ℤ,
                p ∈ self_query ns f (a : ℤ) (ns.getD b default).left ++
                  self_query ns f (a : ℤ) (ns.getD b default).right
                ↔ PairsOf aabbs s t p := by
            intro hBint
            obtain ⟨t₁, t₂, hsum, hlv, hrv, hdis12, u₁, u₂, _⟩ := tv2.node_inv hBint
            subst hsum
            simp only [Multiset.card_add] at hm hfuel hspan
            have hd1 := u₁.card_pos
            have hd2 := u₂.card_pos
            rw [hlv, hrv]
            obtain ⟨ndL, chL⟩ := ih a (b + 1) s t₁ tv1 u₁ (by omega)
              (Or.inr ⟨by omega, hdisj.mono_right (Multiset.le_add_right _ _)⟩)
              f (by omega)
            obtain ⟨ndR, chR⟩ := ih a (b + 2 * Multiset.card t₁) s t₂ tv1 u₂ (by omega)
              (Or.inr ⟨by omega, hdisj.mono_right (Multiset.le_add_left _ _)⟩)
              f (by omega)
            constructor
            · rw [List.nodup_append]
              refine ⟨ndL, ndR, pairs_disjoint_of_chars chL chR ?_⟩
              intro i j hm1 hm2
              rcases hm1 with ⟨hi1, hj1⟩ | ⟨hj1, hi1⟩ <;>
                rcases hm2 with ⟨hi2, hj2⟩ | ⟨hj2, hi2⟩
              · exact Multiset.disjoint_left.mp hdis12 hj1 hj2
              · exact Multiset.disjoint_left.mp hdisj hj2
                  (Multiset.mem_add.mpr (Or.inl hj1))
              · exact Multiset.disjoint_left.mp hdisj hi2
                  (Multiset.mem_add.mpr (Or.inl hi1))
              · exact Multiset.disjoint_left.mp hdis12 hi1 hi2
            · intro p
              rw [List.mem_append, chL p, chR p, PairsOf_add_right]
          have hdescendA : ¬ 0 ≤ (ns.getD a default).shape_index →
              (self_query ns f (ns.getD a default).left (b : ℤ) ++
                self_query ns f (ns.getD a default).right (b : ℤ)).Nodup ∧
              ∀ p : ℤ × ℤ,
                p ∈ self_query ns f (ns.getD a default).left (b : ℤ) ++
                  self_query ns f (ns.getD a default).right (b : ℤ)
                ↔ PairsOf aabbs s t p := by
            intro hAint
            obtain ⟨s₁, s₂, hsum, hlv, hrv, hdis12, u₁, u₂, _⟩ := tv1.node_inv hAint
            subst hsum
            simp only [Multiset.card_add] at hm hfuel hspan
            have hd1 := u₁.card_pos
            have hd2 := u₂.card_pos
            rw [hlv, hrv]
            obtain ⟨ndL, chL⟩ := ih (a + 1) b s₁ t u₁ tv2 (by omega)
              (Or.inr ⟨by omega, hdisj.mono_left (Multiset.le_add_right _ _)⟩)
              f (by omega)
            obtain ⟨ndR, chR⟩ := ih (a + 2 * Multiset.card s₁) b s₂ t u₂ tv2 (by omega)
              (Or.inr ⟨by omega, hdisj.mono_left (Multiset.le_add_left _ _)⟩)
              f (by omega)
            constructor
            · rw [List.nodup_append]
              refine ⟨ndL, ndR, pairs_disjoint_of_chars chL chR ?_⟩
              intro i j hm1 hm2
              rcases hm1 with ⟨hi1, hj1⟩ | ⟨hj1, hi1⟩ <;>
                rcases hm2 with ⟨hi2, hj2⟩ | ⟨hj2, hi2⟩
              · exact Multiset.disjoint_left.mp hdis12 hi1 hi2
              · exact Multiset.disjoint_left.mp hdisj
                  (Multiset.mem_add.mpr (Or.inl hi1)) hi2
              · exact Multiset.disjoint_left.mp hdisj
                  (Multiset.mem_add.mpr (Or.inr hi2)) hi1
              · exact Multiset.disjoint_left.mp hdis12 hj1 hj2
            · intro p
              rw [List.mem_append, chL p, chR p, PairsOf_add_left]
          by_cases hA : 0 ≤ (ns.getD a default).shape_index
          · rw [if_pos hA]
            exact hdescendB (fun h => hab ⟨hA, h⟩)
          · rw [if_neg hA]
            by_cases hB : 0 ≤ (ns.getD b default).shape_index
            · rw [if_pos hB]
              exact hdescendA hA
            · rw [if_neg hB]
              by_cases hsz : (ns.getD b default).subtree_size ≤
                  (ns.getD a default).subtree_size
              · rw [if_pos hsz]
                exact hdescendA hA
              · rw [if_neg hsz]
                exact hdescendB hB

/-- `find_all_pairs` after `build` emits exactly the normalised overlapping
index pairs, each once. -/
theorem find_all_pairs_spec (aabbs : List AABB) :
    ((BVH.build aabbs).find_all_pairs).Nodup ∧
    ∀ p : ℤ × ℤ, p ∈ (BVH.build aabbs).find_all_pairs ↔
      PairsOf aabbs (↑(List.range aabbs.length)) (↑(List.range aabbs.length)) p := by
  by_cases h : aabbs = []
  · subst h
    have hfp : (BVH.build ([] : List AABB)).find_all_pairs = [] := rfl
    rw [hfp]
    refine ⟨List.nodup_nil, ?_⟩
    intro p
    simp only [List.not_mem_nil, false_iff]
    rintro ⟨i, j, _, hmem, _, _⟩
    rcases hmem with ⟨hi, _⟩ | ⟨_, hi⟩ <;> simp at hi
  · obtain ⟨hlen, hview⟩ := build_view aabbs h
    have hn : 1 ≤ aabbs.length := List.length_pos.mpr h
    have hcard : Multiset.card (↑(List.range aabbs.length) : Multiset ℕ)
        = aabbs.length := by
      rw [Multiset.coe_card, List.length_range]
    have hnotempty : ¬ ((BVH.build aabbs).nodes.isEmpty = true) := by
      rw [List.isEmpty_iff]
      intro hc
      rw [hc] at hlen
      simp at hlen
      omega
    obtain ⟨hnodup, hchar⟩ := self_query_spec aabbs (BVH.build aabbs).nodes
      (2 * aabbs.length) 0 0 _ _ hview hview (by rw [hcard]; omega)
      (Or.inl ⟨rfl, rfl⟩) (2 * (BVH.build aabbs).nodes.length + 2)
      (by rw [hcard, hlen]; omega)
    simp only [Nat.cast_zero] at hnodup hchar
    have hfp : (BVH.build aabbs).find_all_pairs
        = self_query (BVH.build aabbs).nodes
            (2 * (BVH.build aabbs).nodes.length + 2) 0 0 := by
      rw [BVH.find_all_pairs, if_neg hnotempty]
    rw [hfp]
    exact ⟨hnodup, hchar⟩

/-- Membership in the brute-force pair list. -/
theorem brute_force_pairs_mem (aabbs : List AABB) (p : ℤ × ℤ) :
    p ∈ brute_force_pairs aabbs ↔
      ∃ i j : ℕ, i < j ∧ j < aabbs.length ∧
        (aabbs.getD i default).overlaps (aabbs.getD j default) = true ∧
        p = ((i : ℤ), (j : ℤ)) := by
  unfold brute_force_pairs
  rw [List.mem_flatMap]
  constructor
  · rintro ⟨i, hi, hp⟩
    rw [List.mem_filterMap] at hp
    obtain ⟨j, hj, hpj⟩ := hp
    rw [List.mem_range] at hi
    rw [List.mem_range'] at hj
    obtain ⟨u, hu, rfl⟩ := hj
    by_cases hov : (aabbs.getD i default).overlaps (aabbs.getD (i + 1 + 1 * u) default)
        = true
    · rw [if_pos hov] at hpj
      exact ⟨i, i + 1 + 1 * u, by omega, by omega, hov, (Option.some.inj hpj).symm⟩
    · rw [if_neg hov] at hpj
      exact absurd hpj (by simp)
  · rintro ⟨i, j, hij, hjlen, hov, rfl⟩
    refine ⟨i, List.mem_range.mpr (by omega), ?_⟩
    rw [List.mem_filterMap]
    refine ⟨j, ?_, ?_⟩
    · rw [List.mem_range']
      exact ⟨j - (i + 1), by omega, by omega⟩
    · rw [if_pos hov]

/-- Claim C1: for every list of AABBs (each with `min ≤ max` on both axes),
the unordered pair set of `find_all_pairs()` after `build` equals the pair
set of the brute-force check. -/
theorem bvh_pairs_equal_brute_force (aabbs : List AABB)
    (hvalid : ∀ a ∈ aabbs, a.min.x ≤ a.max.x ∧ a.min.y ≤ a.max.y) :
    ((BVH.build aabbs).find_all_pairs).toFinset
      = (brute_force_pairs aabbs).toFinset := by
  obtain ⟨_, hchar⟩ := find_all_pairs_spec aabbs
  ext p
  simp only [List.mem_toFinset]
  rw [hchar p, brute_force_pairs_mem]
  constructor
  · rintro ⟨i, j, hij, hmem, hov, rfl⟩
    have hj : j ∈ (↑(List.range aabbs.length) : Multiset ℕ) := by
      rcases hmem with ⟨_, h2⟩ | ⟨h2, _⟩ <;> exact h2
    have hjlen : j < aabbs.length := by simpa using hj
    exact ⟨i, j, hij, hjlen, hov, rfl⟩
  · rintro ⟨i, j, hij, hjlen, hov, rfl⟩
    refine ⟨i, j, hij, Or.inl ⟨?_, ?_⟩, hov, rfl⟩
    · simpa using (by omega : i < aabbs.length)
    · simpa using hjlen

/-- Witness for C1 at the concrete scenario boxes. -/
theorem bvh_pairs_equal_brute_force_witness :
    (∀ a ∈ [cA, cB, cC], a.min.x ≤ a.max.x ∧ a.min.y ≤ a.max.y) ∧
      ((BVH.build [cA, cB, cC]).find_all_pairs).toFinset
        = (brute_force_pairs [cA, cB, cC]).toFinset :=
  ⟨by decide, bvh_pairs_equal_brute_force [cA, cB, cC] (by decide)⟩

/-- Claim C5: every emitted pair has the smaller index first (so its two
indices are distinct), and no unordered pair is reported twice. -/
theorem pairs_normalized_nodup (aabbs : List AABB) :
    (∀ p ∈ (BVH.build aabbs).find_all_pairs, p.1 < p.2) ∧
      ((BVH.build aabbs).find_all_pairs).Nodup ∧
      List.Pairwise (fun p q : ℤ × ℤ => p ≠ q ∧ p ≠ (q.2, q.1))
        ((BVH.build aabbs).find_all_pairs) := by
  obtain ⟨hnodup, hchar⟩ := find_all_pairs_spec aabbs
  have hfst : ∀ p ∈ (BVH.build aabbs).find_all_pairs, p.1 < p.2 := by
    intro p hp
    obtain ⟨i, j, hij, _, _, rfl⟩ := (hchar p).mp hp
    simp only []
    omega
  refine ⟨hfst, hnodup, ?_⟩
  exact List.Pairwise.imp_of_mem
    (fun {p q} hp hq hne => ⟨hne, fun hc => by
      have h1 := hfst p hp
      have h2 := hfst q hq
      rw [hc] at h1
      simp only [] at h1
      omega⟩)
    hnodup

/-- Witness for C5: the concrete pair (0, 1) is emitted with the smaller
index first. -/
theorem pairs_normalized_nodup_witness :
    ((0 : ℤ), (1 : ℤ)) ∈ (BVH.build [cA, cB, cC]).find_all_pairs ∧
      ((0 : ℤ), (1 : ℤ)).1 < ((0 : ℤ), (1 : ℤ)).2 :=
  ⟨of_decide_eq_true (by with_unfolding_all rfl),
    (pairs_normalized_nodup [cA, cB, cC]).1 _
      (of_decide_eq_true (by with_unfolding_all rfl))⟩
